import Mathlib

/-!
Verification development for the sitemap-generator service
(`src/Sitemap_Service/sitemap_api.py`).  The Python code is shallowly
embedded: URLs are strings (lists of characters), `urllib.parse` is
modelled by executable functions over `List Char`, the Selenium renderer
is abstracted as an oracle mapping a page URL to the list of resolved
absolute link targets found on that page, and the recursive crawler is a
state-passing function instrumented with an event trace.
-/

instance exceptDecEq {ε α : Type} [DecidableEq ε] [DecidableEq α] :
    DecidableEq (Except ε α) := fun x y =>
  match x, y with
  | .ok a, .ok b =>
    if h : a = b then .isTrue (by rw [h]) else .isFalse (by simp [h])
  | .error a, .error b =>
    if h : a = b then .isTrue (by rw [h]) else .isFalse (by simp [h])
  | .ok _, .error _ => .isFalse (by simp)
  | .error _, .ok _ => .isFalse (by simp)

/-- Membership test for a contiguous substring, matching Python's
`pat in s` on strings (the empty pattern is a substring of anything). -/
def containsSub (pat : List Char) : List Char → Bool
  | [] => pat.isEmpty
  | c :: rest => pat.isPrefixOf (c :: rest) || containsSub pat rest

/-- Python `s.rstrip(c)` for a single character: drop every trailing `c`. -/
def rstripChar (c : Char) (l : List Char) : List Char :=
  (l.reverse.dropWhile (fun x => x = c)).reverse

/-- Split a character list at the first occurrence of `c`; `none` when `c`
is absent.  Matches Python `s.split(c, 1)` combined with `c in s`. -/
def splitAtFirst (c : Char) : List Char → Option (List Char × List Char)
  | [] => none
  | x :: xs =>
    if x = c then some ([], xs)
    else (splitAtFirst c xs).map (fun p => (x :: p.1, p.2))

/-- Characters legal in a URL scheme after the initial letter
(`urllib.parse.scheme_chars`). -/
def schemeChars : List Char :=
  "abcdefghijklmnopqrstuvwxyzABCDEFGHIJKLMNOPQRSTUVWXYZ0123456789+-.".data

/-- Leading/trailing C0-control-or-space stripping followed by removal of
tab/CR/LF anywhere, as `urllib.parse.urlsplit` sanitizes its input. -/
def sanitizeUrl (l : List Char) : List Char :=
  (((l.dropWhile (fun c => c.toNat ≤ 32)).reverse.dropWhile
      (fun c => c.toNat ≤ 32)).reverse).filter
    (fun c => ¬ (c = '\t' ∨ c = '\r' ∨ c = '\n'))

/-- Scheme extraction of `urlsplit`: the text before the first `:` is a
scheme when it is non-empty, starts with an ASCII letter and consists of
scheme characters only; it is lower-cased.  Returns `(scheme, rest)`. -/
def splitScheme (url : List Char) : List Char × List Char :=
  match splitAtFirst ':' url with
  | none => ([], url)
  | some (pre, post) =>
    match pre with
    | [] => ([], url)
    | c0 :: _ =>
      if c0.isAlpha ∧ pre.all (fun c => c ∈ schemeChars) then
        (pre.map Char.toLower, post)
      else ([], url)

/-- Network-location extraction of `urlsplit` (`_splitnetloc`): after the
leading `//`, the netloc runs to the first `/`, `?` or `#`. -/
def splitNetloc (l : List Char) : List Char × List Char :=
  let rest := l.drop 2
  let netloc := rest.takeWhile (fun c => ¬ (c = '/' ∨ c = '?' ∨ c = '#'))
  (netloc, rest.drop netloc.length)

/-- Parsed URL components, as produced by `urllib.parse.urlparse`. -/
structure UrlParts where
  scheme : List Char
  netloc : List Char
  path : List Char
  params : List Char
  query : List Char
  fragment : List Char
deriving DecidableEq, Repr

/-- Model of `urllib.parse.urlsplit`.  The only failure mode modelled is
the `ValueError("Invalid IPv6 URL")` raised on a bracket mismatch in the
netloc; this is the parse failure the service's `try/except` guards
against. -/
def urlsplitL (url0 : List Char) : Except String UrlParts :=
  let url1 := sanitizeUrl url0
  let sr := splitScheme url1
  let nr := if sr.2.take 2 = ['/', '/'] then splitNetloc sr.2 else ([], sr.2)
  if ('[' ∈ nr.1 ∧ ']' ∉ nr.1) ∨ (']' ∈ nr.1 ∧ '[' ∉ nr.1) then
    .error "Invalid IPv6 URL"
  else
    let fr := match splitAtFirst '#' nr.2 with
      | some p => p
      | none => (nr.2, [])
    let qr := match splitAtFirst '?' fr.1 with
      | some p => p
      | none => (fr.1, [])
    .ok ⟨sr.1, nr.1, qr.1, [], qr.2, fr.2⟩

/-- Split of path parameters (`urllib.parse._splitparams`): look for `;`
at or after the last `/`; when the path has no `/`, anywhere. -/
def splitParams (l : List Char) : List Char × List Char :=
  if '/' ∈ l then
    let post := (l.reverse.takeWhile (fun c => c ≠ '/')).reverse
    let pre := l.take (l.length - post.length)
    match splitAtFirst ';' post with
    | none => (l, [])
    | some p => (pre ++ p.1, p.2)
  else
    match splitAtFirst ';' l with
    | none => (l, [])
    | some p => (p.1, p.2)

/-- Model of `urllib.parse.urlparse`: `urlsplit` plus the params split. -/
def urlparseL (url : List Char) : Except String UrlParts :=
  match urlsplitL url with
  | .error e => .error e
  | .ok p =>
    if ';' ∈ p.path then
      let pr := splitParams p.path
      .ok { p with path := pr.1, params := pr.2 }
    else .ok p

/-- String-level `urlparse`. -/
def urlparse (s : String) : Except String UrlParts := urlparseL s.data

/-- Model of `urllib.parse.urlunsplit`. -/
def urlunsplitL (scheme netloc path query fragment : List Char) : List Char :=
  let u1 :=
    if netloc ≠ [] ∨ (path ≠ [] ∧ path.take 2 = ['/', '/']) then
      let p1 := if path ≠ [] ∧ path.take 1 ≠ ['/'] then '/' :: path else path
      '/' :: '/' :: (netloc ++ p1)
    else path
  let u2 := if scheme ≠ [] then scheme ++ ':' :: u1 else u1
  let u3 := if query ≠ [] then u2 ++ '?' :: query else u2
  if fragment ≠ [] then u3 ++ '#' :: fragment else u3

/-- Model of `urllib.parse.urlunparse`: params are re-attached to the
path with `;` before `urlunsplit`. -/
def urlunparseL (scheme netloc path params query fragment : List Char) : List Char :=
  let p1 := if params ≠ [] then path ++ ';' :: params else path
  urlunsplitL scheme netloc p1 query fragment

/-- SitemapGenerator.is_same_domain: compare the netloc of `url` with the
netloc of `base`; the Python `try/except` turns any parse failure into
`False`. -/
def is_same_domain (base url : String) : Bool :=
  match urlparse base, urlparse url with
  | .ok b, .ok u => b.netloc = u.netloc
  | _, _ => false

/-- Core of SitemapGenerator.is_child_of on already-parsed components;
the Python method reads only `netloc` and `path` of the two parses. -/
def icCore (pnet ppath cnet cpath : List Char) : Bool :=
  if pnet ≠ cnet then false
  else
    let pp := rstripChar '/' ppath
    let cp := rstripChar '/' cpath
    if pp = [] then cp ≠ [] ∧ cp.take 1 = ['/']
    else if ¬ (pp ++ ['/']).isPrefixOf cp then false
    else if containsSub "blogs".data pp ∨ containsSub "blog".data pp then true
    else ¬ ('/' ∈ cp.drop (pp.length + 1))

/-- SitemapGenerator.is_child_of.  The two `urlparse` calls are not
guarded in the source, so a parse failure propagates (`Except.error`). -/
def is_child_of (p c : String) : Except String Bool :=
  match urlparseL p.data, urlparseL c.data with
  | .ok P, .ok C => .ok (icCore P.netloc P.path C.netloc C.path)
  | .error e, _ => .error e
  | _, .error e => .error e

/-- Total wrapper for `is_child_of` used inside the crawl model.  In the
service, every link reaching `crawl_recursive` has already passed
`is_same_domain` inside `get_page_links` (and the seed URLs are parsed by
the API layer), so both parses succeed and the default branch is
unreachable there. -/
def is_child_ofB (p c : String) : Bool :=
  match is_child_of p c with
  | .ok b => b
  | .error _ => false

/-- Python `clean_url.endswith(('.jpg', '.png', '.gif', '.css', '.js',
'.pdf', '.zip'))`: the suffix test runs on the whole cleaned URL string,
query included. -/
def endsWithExt (u : List Char) : Bool :=
  [".jpg", ".png", ".gif", ".css", ".js", ".pdf", ".zip"].any
    (fun e => e.data.isSuffixOf u)

/-- Normalization applied to each link in `get_page_links`: re-serialize
the parse with the fragment dropped (`urlunparse` with `''` fragment). -/
def clean_url (t : String) : Except String String :=
  match urlparse t with
  | .error e => .error e
  | .ok p => .ok ⟨urlunparseL p.scheme p.netloc p.path p.params p.query []⟩

/-- Per-target filter of `get_page_links`: keep a resolved absolute
target only if it is same-domain; then clean it and keep the cleaned URL
when it starts with "http", differs from the origin URL, does not end in
a known non-content extension and contains no `#`.  The `error` branch is
unreachable because `is_same_domain` succeeding means the same parse
succeeds. -/
def keepLink (base url t : String) : Option String :=
  if is_same_domain base t then
    match clean_url t with
    | .ok c =>
      if "http".data.isPrefixOf c.data ∧ c ≠ url ∧ endsWithExt c.data = false ∧
          '#' ∉ c.data then some c
      else none
    | .error _ => none
  else none

/-- Body of the link-extraction loop of `get_page_links`, with the
accumulated `urls` set threaded through.  Each iteration first runs the
target through `urljoin`, which re-parses it and raises `ValueError` on
a malformed (bracket-mismatched) reference; that exception is caught by
the inner `except Exception` wrapping the whole loop, after which the
function falls through to `return urls` — so a failing target makes the
loop STOP and return the links accumulated so far, not the empty set.
A target that parses goes through the `keepLink` filter as usual. -/
def extractLoop (base url : String) : List String → List String → List String
  | acc, [] => acc
  | acc, t :: ts =>
    match urlparse t with
    | .error _ => acc
    | .ok _ =>
      match keepLink base url t with
      | some c => extractLoop base url (if c ∈ acc then acc else acc ++ [c]) ts
      | none => extractLoop base url acc ts

/-- Link collection of `get_page_links` over the hyperlink targets of
the rendered page (targets are the absolute href values; `urljoin` is
the identity on an absolute same-scheme reference apart from the
re-serialization the code performs anyway, and the blogs
scroll-and-rescan pass feeds further targets through the identical
filter, so a single pass over all collected targets models both loops;
the page `url` itself always parses in the service — it is a seed
validated by the API layer or a clean extracted link — so `urljoin`
raises exactly when the target's parse does).  The result models the
Python `set` of clean URLs, or the partial set accumulated before a
target whose resolution raised. -/
def extract_links (base url : String) (targets : List String) : List String :=
  extractLoop base url [] targets

/-- SitemapGenerator.get_page_links: rendering is abstracted as an
`Except` value; the outer `try/except` returns the empty set on any
rendering failure, while an exception inside the extraction loop is
caught by the inner `except` and the partially accumulated set is
returned (`extractLoop` stopping early). -/
def get_page_links (base url : String) (render : Except String (List String)) :
    List String :=
  match render with
  | .ok targets => extract_links base url targets
  | .error _ => []

/-- Crawl state owned by a SitemapGenerator: `visited_urls`,
`all_found_urls` and `url_children`.  Python sets/dicts are lists with
membership-based insertion. -/
structure CrawlState where
  visited : List String
  allFound : List String
  childrenOf : List (String × List String)
deriving DecidableEq, Repr

/-- Trace events instrumenting the crawl: `proc` marks a call of
`crawl_recursive` that passed the depth/visited guard (recording the
state just before `url` is inserted and the links fetched for it);
`blogCall` marks a recursive call issued by the blog-deepening loop
(recording the state at the moment of the call). -/
inductive CrawlEvent where
  | proc (url : String) (depth : Nat) (stBefore : CrawlState) (links : List String)
  | blogCall (parent : String) (depth : Nat) (link : String) (stBefore : CrawlState)
deriving DecidableEq, Repr

/-- State recorded in an event. -/
def CrawlEvent.before : CrawlEvent → CrawlState
  | .proc _ _ st _ => st
  | .blogCall _ _ _ st => st

/-- Visited set right after the step an event records: a `proc` event has
inserted its URL, a `blogCall` has not changed the state itself. -/
def CrawlEvent.lowerVisited : CrawlEvent → List String
  | .proc u _ st _ => u :: st.visited
  | .blogCall _ _ _ st => st.visited

/-- Set-style insertion used for `all_found_urls.update(links)`. -/
def insertNew (l : List String) (x : String) : List String :=
  if x ∈ l then l else l ++ [x]

/-- Set union `self.all_found_urls.update(links)`. -/
def unionInto (l : List String) (xs : List String) : List String :=
  xs.foldl insertNew l

/-- Python `'blogs' in url` on the full URL string. -/
def blogsIn (s : String) : Bool := containsSub "blogs".data s.data

/-- Python `'/blogs/' in link` on the full URL string. -/
def slashBlogsIn (s : String) : Bool := containsSub "/blogs/".data s.data

/-- One guarded loop of `crawl_recursive`: walk the links in order, and
where `cond` holds emit the instrumentation events and run `step`
(state-threaded, like the Python `for` loops mutating `self`). -/
def processList (step : CrawlState → String → CrawlState × List CrawlEvent)
    (cond : CrawlState → String → Bool)
    (emit : CrawlState → String → List CrawlEvent) :
    CrawlState → List String → CrawlState × List CrawlEvent
  | s, [] => (s, [])
  | s, l :: rest =>
    if cond s l then
      let r := step s l
      let r2 := processList step cond emit r.1 rest
      (r2.1, emit s l ++ r.2 ++ r2.2)
    else processList step cond emit s rest

/-- Blog-section deepening loop of `crawl_recursive`: when the full URL
string contains "blogs" and `depth < 3`, recurse into every same-domain
link containing `/blogs/` that is not yet visited. -/
def blogPhase (step : CrawlState → String → CrawlState × List CrawlEvent)
    (base url : String) (depth : Nat) (s : CrawlState) (links : List String) :
    CrawlState × List CrawlEvent :=
  if blogsIn url ∧ depth < 3 then
    processList step
      (fun s' l =>
        is_same_domain base l && slashBlogsIn l && ! decide (l ∈ s'.visited))
      (fun s' l => [.blogCall url depth l s']) s links
  else (s, [])

/-- Children loop of `crawl_recursive`: recurse into every child not yet
visited. -/
def childPhase (step : CrawlState → String → CrawlState × List CrawlEvent)
    (s : CrawlState) (children : List String) :
    CrawlState × List CrawlEvent :=
  processList step (fun s' l => ! decide (l ∈ s'.visited)) (fun _ _ => []) s
    children

/-- SitemapGenerator.crawl_recursive with an explicit structural fuel.
The fuel is bookkeeping only: the caller supplies
`maxDepth + 1 - depth`, so the `0` case is reached exactly when
`depth > maxDepth`, where the Python guard returns as well.  `oracle`
abstracts `get_page_links` (links of a page, a set, hence `dedup`). -/
def crawlF (oracle : String → List String) (base : String) (maxDepth : Nat) :
    Nat → CrawlState → String → Nat → CrawlState × List CrawlEvent
  | 0, s, _, _ => (s, [])
  | fuel + 1, s, url, depth =>
    if depth > maxDepth ∨ url ∈ s.visited then (s, [])
    else
      let links := (oracle url).dedup
      let children := links.filter (fun l => is_child_ofB url l)
      let s3 : CrawlState :=
        ⟨url :: s.visited, unionInto s.allFound links,
          (url, children) :: s.childrenOf⟩
      let r4 :=
        blogPhase (fun s' l => crawlF oracle base maxDepth fuel s' l (depth + 1))
          base url depth s3 links
      let r5 :=
        childPhase (fun s' l => crawlF oracle base maxDepth fuel s' l (depth + 1))
          r4.1 children
      (r5.1, .proc url depth s links :: (r4.2 ++ r5.2))

/-- SitemapGenerator.crawl_recursive: the fuel is fixed so that it runs
out exactly when the `depth > max_depth` guard fires. -/
def crawl_recursive (oracle : String → List String) (base : String)
    (maxDepth : Nat) (s : CrawlState) (url : String) (depth : Nat) :
    CrawlState × List CrawlEvent :=
  crawlF oracle base maxDepth (maxDepth + 1 - depth) s url depth

/-- Synthetic root of a crawl: `urlunparse((scheme, netloc, '', '', '',
''))` of the parsed base URL. -/
def synth_root (p : UrlParts) : String :=
  ⟨urlunparseL p.scheme p.netloc [] [] [] []⟩

/-- SitemapGenerator.crawl_site: seed `all_found_urls` with the sitemap
discovery results, crawl from the synthetic root (scheme + netloc), then
crawl from the base URL when it differs.  The `urlparse` of the base URL
is unguarded in the source, so its failure propagates. -/
def crawl_site (oracle : String → List String) (base : String) (maxDepth : Nat)
    (sitemapUrls : List String) : Except String (CrawlState × List CrawlEvent) :=
  match urlparse base with
  | .error e => .error e
  | .ok p =>
    let root : String := synth_root p
    let s0 : CrawlState := ⟨[], unionInto [] sitemapUrls, []⟩
    let r1 := crawl_recursive oracle base maxDepth s0 root 0
    if base ≠ root then
      let r2 := crawl_recursive oracle base maxDepth r1.1 base 0
      .ok (r2.1, r1.2 ++ r2.2)
    else .ok r1

/-- Finite link-table oracle: pages absent from the table have no links. -/
def lookupLinks (table : List (String × List String)) (u : String) :
    List String :=
  match table.find? (fun e => e.1 == u) with
  | some e => e.2
  | none => []

/-- Oracle built from a finite link table. -/
def oracleOf (table : List (String × List String)) : String → List String :=
  fun u => lookupLinks table u

/-- Python `sorted` on a list of strings (lexicographic by code point). -/
def sortStrings (l : List String) : List String :=
  l.insertionSort (· ≤ ·)

/-- Keys of the `url_children` dict. -/
def keysOf (st : CrawlState) : List String :=
  st.childrenOf.map Prod.fst

/-- First-match association-list lookup (Python dict lookup; the crawl
keeps keys unique). -/
def lookupList : List (String × List String) → String → Option (List String)
  | [], _ => none
  | e :: rest, k => if e.1 = k then some e.2 else lookupList rest k

/-- Lookup in the `url_children` dict (`url in self.url_children` plus
subscript). -/
def childrenLookup (st : CrawlState) (u : String) : Option (List String) :=
  lookupList st.childrenOf u

/-- Path component of a URL; the crawl only stores URLs whose parse
succeeds (they passed `is_same_domain`), so the default branch is
unreachable on crawl-produced states (in the source a parse failure here
would raise out of `build_hierarchical_sitemap`). -/
def pathOfB (u : String) : List Char :=
  match urlparse u with
  | .ok p => p.path
  | .error _ => []

/-- Python `f"{parsed.netloc}{parsed.path}"`, the key a URL contributes
to the hierarchical sitemap. -/
def pathKeyB (u : String) : String :=
  match urlparse u with
  | .ok p => ⟨p.netloc ++ p.path⟩
  | .error _ => ""

/-- Value of the nested sitemap dictionary: either a nested tree or the
flat, sorted descendant-key list at a leaf.  This object/array asymmetry
mirrors the JSON output. -/
inductive Entry where
  | sub : List (String × Entry) → Entry
  | leaf : List String → Entry

/-- Python dict assignment `tree[child_key] = v`: overwrite in place when
the key exists (keeping its position), append otherwise. -/
def updateAssoc (t : List (String × Entry)) (k : String) (v : Entry) :
    List (String × Entry) :=
  match t with
  | [] => [(k, v)]
  | e :: rest => if e.1 = k then (k, v) :: rest else e :: updateAssoc rest k v

/-- Dictionary lookup in a built tree. -/
def lookupEntry : List (String × Entry) → String → Option Entry
  | [], _ => none
  | e :: rest, k => if e.1 = k then some e.2 else lookupEntry rest k

/-- Projection: the flat descendant list stored at key `k`, when `k` maps
to a leaf. -/
def leafAt (t : List (String × Entry)) (k : String) : Option (List String) :=
  match lookupEntry t k with
  | some (.leaf ds) => some ds
  | _ => none

/-- Descendant list computed for a leaf child in `build_tree_for_url`:
scan `all_found_urls` (with the extra `'/blogs/' in discovered_path`
condition) when the child's path contains "blogs", otherwise scan
`visited_urls`; keep candidates whose path extends the child's path by
`/` and which differ from the child; map to path keys, deduplicate
(`set`), sort. -/
def leafDescendants (st : CrawlState) (child : String) : List String :=
  let childPath := pathOfB child
  let cands :=
    if containsSub "blogs".data childPath then
      st.allFound.filter (fun du =>
        (childPath ++ ['/']).isPrefixOf (pathOfB du) && ! decide (du = child) &&
          containsSub "/blogs/".data (pathOfB du))
    else
      st.visited.filter (fun du =>
        (childPath ++ ['/']).isPrefixOf (pathOfB du) && ! decide (du = child))
  sortStrings ((cands.map pathKeyB).dedup)

/-- build_tree_for_url of `build_hierarchical_sitemap`: iterate the
sorted children of `url`; a child that has a non-empty `url_children`
entry becomes a nested subtree, any other child becomes a leaf carrying
its inferred descendant list.  The Python recursion has no explicit
bound; the structural `fuel` is bookkeeping (the claims hold for every
fuel). -/
def build_tree_for_url (st : CrawlState) : Nat → String → List (String × Entry)
  | 0, _ => []
  | fuel + 1, url =>
    match childrenLookup st url with
    | none => []
    | some children =>
      (sortStrings children).foldl (fun tree child =>
        match childrenLookup st child with
        | some cc =>
          if cc ≠ [] then
            updateAssoc tree (pathKeyB child)
              (.sub (build_tree_for_url st fuel child))
          else updateAssoc tree (pathKeyB child) (.leaf (leafDescendants st child))
        | none =>
          updateAssoc tree (pathKeyB child) (.leaf (leafDescendants st child))) []

/-- SitemapGenerator.build_hierarchical_sitemap: one entry keyed by the
base domain, holding the tree rooted at the synthetic root URL. -/
def build_hierarchical_sitemap (st : CrawlState) (base : String) (fuel : Nat) :
    Except String (List (String × Entry)) :=
  match urlparse base with
  | .error e => .error e
  | .ok p =>
    .ok [(⟨p.netloc⟩, .sub (build_tree_for_url st fuel (synth_root p)))]

/-- SitemapGenerator.generate_sitemap: driver setup failure aborts the
job before any traversal; otherwise crawl then build the hierarchy. -/
def generate_sitemap (driverInit : Except String Unit)
    (oracle : String → List String) (base : String) (maxDepth : Nat)
    (sitemapUrls : List String) (fuel : Nat) :
    Except String (List (String × Entry)) :=
  match driverInit with
  | .error e => .error e
  | .ok _ =>
    match crawl_site oracle base maxDepth sitemapUrls with
    | .error e => .error e
    | .ok r => build_hierarchical_sitemap r.1 base fuel

/-- Bundle of growth facts about one traversal segment: the visited and
all-found sets grow from `s` to `s'`, every recorded intermediate state
is sandwiched between them, and the intermediate visited sets grow along
the trace. -/
def TraceOK (s : CrawlState) (tr : List CrawlEvent) (s' : CrawlState) : Prop :=
  s.visited ⊆ s'.visited ∧ s.allFound ⊆ s'.allFound ∧
  (∀ e ∈ tr, s.visited ⊆ e.before.visited ∧ e.lowerVisited ⊆ s'.visited ∧
    s.allFound ⊆ e.before.allFound) ∧
  List.Pairwise (fun a b => a.lowerVisited ⊆ b.before.visited) tr

/-- Invariant of a crawl state: every key of `url_children` has been
visited. -/
def KeysInv (st : CrawlState) : Prop := ∀ k ∈ keysOf st, k ∈ st.visited

/-- URLs of the `proc` events of a trace, in processing order. -/
def procUrls (tr : List CrawlEvent) : List String :=
  tr.filterMap (fun e =>
    match e with
    | .proc u _ _ _ => some u
    | _ => none)

/-- Entry assigned to one child by the `build_tree_for_url` fold: a
nested subtree when the child has a non-empty `url_children` entry, a
leaf descendant list otherwise. -/
def childEntryG (st : CrawlState) (fuel : Nat) (child : String) : Entry :=
  match childrenLookup st child with
  | some cc =>
    if cc ≠ [] then .sub (build_tree_for_url st fuel child)
    else .leaf (leafDescendants st child)
  | none => .leaf (leafDescendants st child)

/-- Deduplication keeping first occurrences, the key-emission order of
repeated Python dict assignment. -/
def firstDedup (l : List String) : List String :=
  l.foldl (fun ks k => if k ∈ ks then ks else ks ++ [k]) []

/-- Well-formedness of a sitemap tree value: every leaf list in it is
sorted and duplicate-free. -/
inductive EntryOK : Entry → Prop where
  | leaf : ∀ ds : List String, ds.Sorted (· ≤ ·) → ds.Nodup →
      EntryOK (.leaf ds)
  | sub : ∀ ts : List (String × Entry), (∀ e ∈ ts, EntryOK e.2) →
      EntryOK (.sub ts)

/-- C1: characterization of `is_child_of` for two URLs that parse and
share a network-location, amended: in the root case the child's stripped
path must be non-empty AND start with `/` (the code tests
`child_path.startswith('/')`, which the claim omits). -/
theorem C1_is_child_of_characterization :
    ∀ (p c : String) (P C : UrlParts),
      urlparse p = .ok P → urlparse c = .ok C → P.netloc = C.netloc →
      ∃ r, is_child_of p c = .ok r ∧
        (rstripChar '/' P.path = [] →
          (r = true ↔ rstripChar '/' C.path ≠ [] ∧
            (rstripChar '/' C.path).take 1 = ['/'])) ∧
        (rstripChar '/' P.path ≠ [] →
          (r = true ↔
            ((rstripChar '/' P.path ++ ['/']).isPrefixOf
                (rstripChar '/' C.path) = true ∧
              (containsSub "blog".data (rstripChar '/' P.path) = true ∨
               containsSub "blogs".data (rstripChar '/' P.path) = true ∨
               '/' ∉ (rstripChar '/' C.path).drop
                  ((rstripChar '/' P.path).length + 1))))) := by
  intro p c P C hp hc hnet
  have hp' : urlparseL p.data = .ok P := hp
  have hc' : urlparseL c.data = .ok C := hc
  refine ⟨icCore P.netloc P.path C.netloc C.path, ?_, ?_, ?_⟩
  · unfold is_child_of
    rw [hp', hc']
  · intro hpp
    unfold icCore
    rw [if_neg (by simp [hnet]), if_pos hpp]
    simp
  · intro hpp
    unfold icCore
    rw [if_neg (by simp [hnet]), if_neg hpp]
    by_cases h2 : ((rstripChar '/' P.path ++ ['/']).isPrefixOf
        (rstripChar '/' C.path) : Bool) = true
    · rw [if_neg (by simp [h2])]
      by_cases h3 : containsSub "blogs".data (rstripChar '/' P.path) = true ∨
          containsSub "blog".data (rstripChar '/' P.path) = true
      · rw [if_pos (by simpa using h3)]
        simp [h2]
        tauto
      · rw [if_neg (by simpa using h3)]
        simp at h3
        simp [h2, h3.1, h3.2]
    · rw [if_pos (by simpa using h2)]
      simp [h2]

/-- C1 counterexample: `"/"` and `"a"` parse to the same (empty)
network-location, the parent's stripped path is empty and the child's
path is non-empty, yet `is_child_of` is false — the claim's root case
("true exactly when child's path is non-empty") fails because the code
additionally requires the child path to start with `/`. -/
theorem C1_counterexample :
    is_child_of "/" "a" = .ok false ∧
    (urlparse "/").map (fun P => P.netloc) = .ok [] ∧
    (urlparse "a").map (fun C => C.netloc) = .ok [] ∧
    (urlparse "/").map (fun P => rstripChar '/' P.path) = .ok [] ∧
    (urlparse "a").map (fun C => rstripChar '/' C.path) = .ok "a".data := by
  decide

/-- C1 witness: the four concrete examples of the claim, obtained from
the characterization theorem. -/
theorem C1_witness :
    is_child_of "https://x.com" "https://x.com/about" = .ok true ∧
    is_child_of "https://x.com/about" "https://x.com/about/team" = .ok true ∧
    is_child_of "https://x.com/about" "https://x.com/about/team/bio" = .ok false ∧
    is_child_of "https://x.com/blogs" "https://x.com/blogs/2024/post-1" = .ok true := by
  refine ⟨?_, ?_, ?_, ?_⟩
  · obtain ⟨r, hr, h1, _⟩ := C1_is_child_of_characterization
      "https://x.com" "https://x.com/about"
      ⟨"https".data, "x.com".data, [], [], [], []⟩
      ⟨"https".data, "x.com".data, "/about".data, [], [], []⟩
      (by decide) (by decide) (by decide)
    have hrt : r = true := (h1 (by decide)).mpr (by decide)
    rw [hr, hrt]
  · obtain ⟨r, hr, _, h2⟩ := C1_is_child_of_characterization
      "https://x.com/about" "https://x.com/about/team"
      ⟨"https".data, "x.com".data, "/about".data, [], [], []⟩
      ⟨"https".data, "x.com".data, "/about/team".data, [], [], []⟩
      (by decide) (by decide) (by decide)
    have hrt : r = true := (h2 (by decide)).mpr (by decide)
    rw [hr, hrt]
  · obtain ⟨r, hr, _, h2⟩ := C1_is_child_of_characterization
      "https://x.com/about" "https://x.com/about/team/bio"
      ⟨"https".data, "x.com".data, "/about".data, [], [], []⟩
      ⟨"https".data, "x.com".data, "/about/team/bio".data, [], [], []⟩
      (by decide) (by decide) (by decide)
    have hrf : r = false := by
      cases r with
      | false => rfl
      | true => exact absurd ((h2 (by decide)).mp rfl) (by decide)
    rw [hr, hrf]
  · obtain ⟨r, hr, _, h2⟩ := C1_is_child_of_characterization
      "https://x.com/blogs" "https://x.com/blogs/2024/post-1"
      ⟨"https".data, "x.com".data, "/blogs".data, [], [], []⟩
      ⟨"https".data, "x.com".data, "/blogs/2024/post-1".data, [], [], []⟩
      (by decide) (by decide) (by decide)
    have hrt : r = true := (h2 (by decide)).mpr (by decide)
    rw [hr, hrt]

/-- C9: `is_same_domain` is a total Boolean function (the embedding of
the `try/except` in the source); relative to a base URL with a non-empty
network-location it returns true exactly when the url parses with the
same network-location, and every parse failure yields false rather than
an error. -/
theorem C9_is_same_domain_spec :
    ∀ (base url : String) (B : UrlParts),
      urlparse base = .ok B → B.netloc ≠ [] →
      ((is_same_domain base url = true ↔
          ∃ U, urlparse url = .ok U ∧ U.netloc = B.netloc) ∧
        (∀ e, urlparse url = .error e → is_same_domain base url = false)) := by
  intro base url B hb _
  constructor
  · unfold is_same_domain
    rw [hb]
    cases hu : urlparse url with
    | ok U => simp [eq_comm]
    | error e => simp
  · intro e he
    unfold is_same_domain
    rw [hb, he]

/-- C9 witness: the concrete checks of the claim, via the theorem. -/
theorem C9_witness :
    is_same_domain "https://x.com" "https://x.com/a" = true ∧
    is_same_domain "https://y.com" "https://x.com/a" = false ∧
    is_same_domain "https://x.com" "http://[::1" = false := by
  refine ⟨?_, ?_, ?_⟩
  · exact (C9_is_same_domain_spec "https://x.com" "https://x.com/a"
      ⟨"https".data, "x.com".data, [], [], [], []⟩ (by decide) (by decide)).1.mpr
      ⟨⟨"https".data, "x.com".data, "/a".data, [], [], []⟩, by decide, by decide⟩
  · have h := (C9_is_same_domain_spec "https://y.com" "https://x.com/a"
      ⟨"https".data, "y.com".data, [], [], [], []⟩ (by decide) (by decide)).1
    cases hb : is_same_domain "https://y.com" "https://x.com/a" with
    | false => rfl
    | true =>
      obtain ⟨U, hU, hnet⟩ := h.mp hb
      rw [show urlparse "https://x.com/a" =
          .ok ⟨"https".data, "x.com".data, "/a".data, [], [], []⟩ from by decide] at hU
      cases hU
      exact absurd hnet (by decide)
  · exact (C9_is_same_domain_spec "https://x.com" "http://[::1"
      ⟨"https".data, "x.com".data, [], [], [], []⟩ (by decide) (by decide)).2
      "Invalid IPv6 URL" (by decide)

/-- C10: `is_child_of` reads only the network-location and path
components of the two parses, so any two pairs of URLs that parse to the
same network-locations and paths (scheme, query, fragment, params free)
yield the same result. -/
theorem C10_is_child_of_depends_only_on_netloc_path :
    ∀ (p₁ c₁ p₂ c₂ : String) (P₁ C₁ P₂ C₂ : UrlParts),
      urlparse p₁ = .ok P₁ → urlparse c₁ = .ok C₁ →
      urlparse p₂ = .ok P₂ → urlparse c₂ = .ok C₂ →
      P₁.netloc = P₂.netloc → P₁.path = P₂.path →
      C₁.netloc = C₂.netloc → C₁.path = C₂.path →
      is_child_of p₁ c₁ = is_child_of p₂ c₂ := by
  intro p₁ c₁ p₂ c₂ P₁ C₁ P₂ C₂ hp₁ hc₁ hp₂ hc₂ hn hp hcn hcp
  have hp₁' : urlparseL p₁.data = .ok P₁ := hp₁
  have hc₁' : urlparseL c₁.data = .ok C₁ := hc₁
  have hp₂' : urlparseL p₂.data = .ok P₂ := hp₂
  have hc₂' : urlparseL c₂.data = .ok C₂ := hc₂
  unfold is_child_of
  rw [hp₁', hc₁', hp₂', hc₂']
  exact congrArg Except.ok (by rw [hn, hp, hcn, hcp])

/-- C10 witness: changing scheme, query and fragment of both URLs leaves
the result unchanged. -/
theorem C10_witness :
    is_child_of "https://x.com/about" "https://x.com/about/team" =
      is_child_of "HTTP://x.com/about?q=1#f" "ftp://x.com/about/team#z" := by
  exact C10_is_child_of_depends_only_on_netloc_path
    "https://x.com/about" "https://x.com/about/team"
    "HTTP://x.com/about?q=1#f" "ftp://x.com/about/team#z"
    ⟨"https".data, "x.com".data, "/about".data, [], [], []⟩
    ⟨"https".data, "x.com".data, "/about/team".data, [], [], []⟩
    ⟨"http".data, "x.com".data, "/about".data, [], "q=1".data, "f".data⟩
    ⟨"ftp".data, "x.com".data, "/about/team".data, [], [], "z".data⟩
    (by decide) (by decide) (by decide) (by decide)
    (by decide) (by decide) (by decide) (by decide)

lemma mem_insertNew {l : List String} {x y : String} :
    y ∈ insertNew l x ↔ y ∈ l ∨ y = x := by
  unfold insertNew
  by_cases h : x ∈ l
  · rw [if_pos h]
    constructor
    · exact Or.inl
    · rintro (hy | rfl)
      · exact hy
      · exact h
  · rw [if_neg h]
    simp [List.mem_append]

lemma mem_unionInto : ∀ (xs l : List String) (y : String),
    y ∈ unionInto l xs ↔ y ∈ l ∨ y ∈ xs := by
  intro xs
  induction xs with
  | nil => intro l y; simp [unionInto]
  | cons x xs ih =>
    intro l y
    show y ∈ unionInto (insertNew l x) xs ↔ _
    rw [ih, mem_insertNew]
    simp [List.mem_cons]
    tauto

lemma subset_unionInto (l xs : List String) : l ⊆ unionInto l xs :=
  fun _ hy => (mem_unionInto xs l _).mpr (Or.inl hy)

lemma right_subset_unionInto (l xs : List String) : xs ⊆ unionInto l xs :=
  fun _ hy => (mem_unionInto xs l _).mpr (Or.inr hy)

lemma before_visited_subset_lower (e : CrawlEvent) :
    e.before.visited ⊆ e.lowerVisited := by
  cases e with
  | proc u d st lk => exact fun x hx => List.mem_cons_of_mem _ hx
  | blogCall p d l st => exact fun x hx => hx

lemma traceOK_nil (s : CrawlState) : TraceOK s [] s :=
  ⟨fun _ h => h, fun _ h => h, by simp, by simp⟩

lemma traceOK_append {s m s' : CrawlState} {t₁ t₂ : List CrawlEvent}
    (h₁ : TraceOK s t₁ m) (h₂ : TraceOK m t₂ s') :
    TraceOK s (t₁ ++ t₂) s' := by
  obtain ⟨hv1, ha1, he1, hp1⟩ := h₁
  obtain ⟨hv2, ha2, he2, hp2⟩ := h₂
  refine ⟨hv1.trans hv2, ha1.trans ha2, ?_, ?_⟩
  · intro e he
    rcases List.mem_append.mp he with h | h
    · obtain ⟨x, y, z⟩ := he1 e h
      exact ⟨x, y.trans hv2, z⟩
    · obtain ⟨x, y, z⟩ := he2 e h
      exact ⟨hv1.trans x, y, ha1.trans z⟩
  · rw [List.pairwise_append]
    refine ⟨hp1, hp2, ?_⟩
    intro a ha b hb
    exact ((he1 a ha).2.1).trans (he2 b hb).1

lemma processList_TraceOK
    (step : CrawlState → String → CrawlState × List CrawlEvent)
    (cond : CrawlState → String → Bool)
    (emit : CrawlState → String → List CrawlEvent)
    (hstep : ∀ s l, TraceOK s (step s l).2 (step s l).1)
    (hemit : ∀ s l, ∀ e ∈ emit s l, e.before = s ∧ e.lowerVisited = s.visited) :
    ∀ (ls : List String) (s : CrawlState),
      TraceOK s (processList step cond emit s ls).2
        (processList step cond emit s ls).1 := by
  intro ls
  induction ls with
  | nil => intro s; exact traceOK_nil s
  | cons l rest ih =>
    intro s
    show TraceOK s
      (if cond s l then _ else processList step cond emit s rest).2 _
    by_cases h : cond s l = true
    · simp only [processList, if_pos h]
      have hemitOK : TraceOK s (emit s l) s := by
        refine ⟨fun _ h => h, fun _ h => h, ?_, ?_⟩
        · intro e he
          obtain ⟨hb, hl⟩ := hemit s l e he
          rw [hb, hl]
          exact ⟨fun _ h => h, fun _ h => h, fun _ h => h⟩
        · apply List.pairwise_iff_forall_sublist.mpr
          intro a b hab
          have ha := hemit s l a (hab.subset (by simp))
          have hb := hemit s l b (hab.subset (by simp))
          rw [ha.2, hb.1]
          exact fun _ h => h
      exact traceOK_append (traceOK_append hemitOK (hstep s l))
        (ih (step s l).1)
    · simp only [processList, if_neg h]
      exact ih s

lemma blogPhase_TraceOK
    (step : CrawlState → String → CrawlState × List CrawlEvent)
    (base url : String) (depth : Nat)
    (hstep : ∀ s l, TraceOK s (step s l).2 (step s l).1) :
    ∀ (s : CrawlState) (links : List String),
      TraceOK s (blogPhase step base url depth s links).2
        (blogPhase step base url depth s links).1 := by
  intro s links
  unfold blogPhase
  split
  · refine processList_TraceOK _ _ _ hstep ?_ links s
    intro s' l e he
    simp only [List.mem_singleton] at he
    rw [he]
    exact ⟨rfl, rfl⟩
  · exact traceOK_nil s

lemma childPhase_TraceOK
    (step : CrawlState → String → CrawlState × List CrawlEvent)
    (hstep : ∀ s l, TraceOK s (step s l).2 (step s l).1) :
    ∀ (s : CrawlState) (children : List String),
      TraceOK s (childPhase step s children).2
        (childPhase step s children).1 := by
  intro s children
  unfold childPhase
  refine processList_TraceOK _ _ _ hstep ?_ children s
  intro s' l e he
  simp at he

lemma crawlF_TraceOK (oracle : String → List String) (base : String)
    (maxDepth : Nat) :
    ∀ (fuel : Nat) (s : CrawlState) (url : String) (depth : Nat),
      TraceOK s (crawlF oracle base maxDepth fuel s url depth).2
        (crawlF oracle base maxDepth fuel s url depth).1 := by
  intro fuel
  induction fuel with
  | zero => intro s url depth; exact traceOK_nil s
  | succ fuel ih =>
    intro s url depth
    by_cases h : depth > maxDepth ∨ url ∈ s.visited
    · simp only [crawlF, if_pos h]
      exact traceOK_nil s
    · simp only [crawlF, if_neg h]
      have hstep : ∀ (s' : CrawlState) (l : String),
          TraceOK s' (crawlF oracle base maxDepth fuel s' l (depth + 1)).2
            (crawlF oracle base maxDepth fuel s' l (depth + 1)).1 :=
        fun s' l => ih s' l (depth + 1)
      have T4 := blogPhase_TraceOK
        (fun s' l => crawlF oracle base maxDepth fuel s' l (depth + 1))
        base url depth hstep
        ⟨url :: s.visited, unionInto s.allFound ((oracle url).dedup),
          (url, ((oracle url).dedup).filter (fun l => is_child_ofB url l)) ::
            s.childrenOf⟩
        ((oracle url).dedup)
      have T5 := childPhase_TraceOK
        (fun s' l => crawlF oracle base maxDepth fuel s' l (depth + 1)) hstep
        (blogPhase (fun s' l => crawlF oracle base maxDepth fuel s' l (depth + 1))
          base url depth
          ⟨url :: s.visited, unionInto s.allFound ((oracle url).dedup),
            (url, ((oracle url).dedup).filter (fun l => is_child_ofB url l)) ::
              s.childrenOf⟩
          ((oracle url).dedup)).1
        (((oracle url).dedup).filter (fun l => is_child_ofB url l))
      have T45 := traceOK_append T4 T5
      refine ⟨?_, ?_, ?_, ?_⟩
      · exact fun x hx => T45.1 (List.mem_cons_of_mem _ hx)
      · exact (subset_unionInto _ _).trans T45.2.1
      · intro e he
        rcases List.mem_cons.mp he with rfl | htail
        · exact ⟨fun _ hx => hx, T45.1, fun _ hx => hx⟩
        · obtain ⟨x, y, z⟩ := T45.2.2.1 e htail
          exact ⟨fun a ha => x (List.mem_cons_of_mem _ ha), y,
            (subset_unionInto _ _).trans z⟩
      · refine List.pairwise_cons.mpr ⟨?_, T45.2.2.2⟩
        intro e he
        exact (T45.2.2.1 e he).1

lemma processList_coverage
    (step : CrawlState → String → CrawlState × List CrawlEvent)
    (cond : CrawlState → String → Bool)
    (emit : CrawlState → String → List CrawlEvent)
    (hstepA : ∀ s l, s.allFound ⊆ (step s l).1.allFound)
    (hcovF : ∀ s l, ∀ v ∈ (step s l).1.visited,
      v ∈ s.visited ∨ v = l ∨ v ∈ (step s l).1.allFound)
    (hcovE : ∀ s l, ∀ e ∈ (step s l).2, ∀ v ∈ e.before.visited,
      v ∈ s.visited ∨ v = l ∨ v ∈ e.before.allFound)
    (hstepS : ∀ s l, ∀ e ∈ (step s l).2, s.allFound ⊆ e.before.allFound)
    (hemitB : ∀ s l, ∀ e ∈ emit s l, e.before = s) :
    ∀ (ls : List String) (s : CrawlState), (∀ l ∈ ls, l ∈ s.allFound) →
      ((∀ v ∈ (processList step cond emit s ls).1.visited,
          v ∈ s.visited ∨ v ∈ (processList step cond emit s ls).1.allFound) ∧
        (∀ e ∈ (processList step cond emit s ls).2, ∀ v ∈ e.before.visited,
          v ∈ s.visited ∨ v ∈ e.before.allFound) ∧
        s.allFound ⊆ (processList step cond emit s ls).1.allFound ∧
        (∀ e ∈ (processList step cond emit s ls).2,
          s.allFound ⊆ e.before.allFound)) := by
  intro ls
  induction ls with
  | nil =>
    intro s _
    refine ⟨fun v hv => Or.inl hv, ?_, fun _ h => h, ?_⟩ <;> simp [processList]
  | cons l rest ih =>
    intro s hls
    by_cases h : cond s l = true
    · simp only [processList, if_pos h]
      have hlA : l ∈ s.allFound := hls l (by simp)
      have hrest : ∀ l' ∈ rest, l' ∈ (step s l).1.allFound :=
        fun l' hl' => hstepA s l (hls l' (List.mem_cons_of_mem _ hl'))
      obtain ⟨ihF, ihE, ihA, ihS⟩ := ih (step s l).1 hrest
      have hAcomp : s.allFound ⊆
          (processList step cond emit (step s l).1 rest).1.allFound :=
        (hstepA s l).trans ihA
      refine ⟨?_, ?_, hAcomp, ?_⟩
      · intro v hv
        rcases ihF v hv with hv1 | hv2
        · rcases hcovF s l v hv1 with hv3 | hv3 | hv3
          · exact Or.inl hv3
          · exact Or.inr (ihA (hv3 ▸ hstepA s l hlA))
          · exact Or.inr (ihA hv3)
        · exact Or.inr hv2
      · intro e he v hv
        rcases List.mem_append.mp he with he1 | he2
        · rcases List.mem_append.mp he1 with he1a | he1b
          · rw [hemitB s l e he1a] at hv ⊢
            exact Or.inl hv
          · rcases hcovE s l e he1b v hv with hv3 | hv3 | hv3
            · exact Or.inl hv3
            · exact Or.inr (hv3 ▸ hstepS s l e he1b hlA)
            · exact Or.inr hv3
        · rcases ihE e he2 v hv with hv3 | hv3
          · rcases hcovF s l v hv3 with hv4 | hv4 | hv4
            · exact Or.inl hv4
            · exact Or.inr (ihS e he2 (hv4 ▸ hstepA s l hlA))
            · exact Or.inr (ihS e he2 hv4)
          · exact Or.inr hv3
      · intro e he
        rcases List.mem_append.mp he with he1 | he2
        · rcases List.mem_append.mp he1 with he1a | he1b
          · rw [hemitB s l e he1a]
            exact fun _ hx => hx
          · exact (hstepS s l e he1b)
        · exact (hstepA s l).trans (ihS e he2)
    · simp only [processList, if_neg h]
      exact ih s (fun l' hl' => hls l' (List.mem_cons_of_mem _ hl'))

lemma blogPhase_coverage
    (step : CrawlState → String → CrawlState × List CrawlEvent)
    (base url : String) (depth : Nat)
    (hstepA : ∀ s l, s.allFound ⊆ (step s l).1.allFound)
    (hcovF : ∀ s l, ∀ v ∈ (step s l).1.visited,
      v ∈ s.visited ∨ v = l ∨ v ∈ (step s l).1.allFound)
    (hcovE : ∀ s l, ∀ e ∈ (step s l).2, ∀ v ∈ e.before.visited,
      v ∈ s.visited ∨ v = l ∨ v ∈ e.before.allFound)
    (hstepS : ∀ s l, ∀ e ∈ (step s l).2, s.allFound ⊆ e.before.allFound) :
    ∀ (s : CrawlState) (links : List String), (∀ l ∈ links, l ∈ s.allFound) →
      ((∀ v ∈ (blogPhase step base url depth s links).1.visited,
          v ∈ s.visited ∨ v ∈ (blogPhase step base url depth s links).1.allFound) ∧
        (∀ e ∈ (blogPhase step base url depth s links).2,
          ∀ v ∈ e.before.visited, v ∈ s.visited ∨ v ∈ e.before.allFound) ∧
        s.allFound ⊆ (blogPhase step base url depth s links).1.allFound ∧
        (∀ e ∈ (blogPhase step base url depth s links).2,
          s.allFound ⊆ e.before.allFound)) := by
  intro s links hls
  unfold blogPhase
  split
  · refine processList_coverage step _ _ hstepA hcovF hcovE hstepS ?_ links s hls
    intro s' l e he
    simp only [List.mem_singleton] at he
    rw [he]
    rfl
  · exact ⟨fun v hv => Or.inl hv, by simp, fun _ h => h, by simp⟩

lemma childPhase_coverage
    (step : CrawlState → String → CrawlState × List CrawlEvent)
    (hstepA : ∀ s l, s.allFound ⊆ (step s l).1.allFound)
    (hcovF : ∀ s l, ∀ v ∈ (step s l).1.visited,
      v ∈ s.visited ∨ v = l ∨ v ∈ (step s l).1.allFound)
    (hcovE : ∀ s l, ∀ e ∈ (step s l).2, ∀ v ∈ e.before.visited,
      v ∈ s.visited ∨ v = l ∨ v ∈ e.before.allFound)
    (hstepS : ∀ s l, ∀ e ∈ (step s l).2, s.allFound ⊆ e.before.allFound) :
    ∀ (s : CrawlState) (children : List String),
      (∀ l ∈ children, l ∈ s.allFound) →
      ((∀ v ∈ (childPhase step s children).1.visited,
          v ∈ s.visited ∨ v ∈ (childPhase step s children).1.allFound) ∧
        (∀ e ∈ (childPhase step s children).2, ∀ v ∈ e.before.visited,
          v ∈ s.visited ∨ v ∈ e.before.allFound) ∧
        s.allFound ⊆ (childPhase step s children).1.allFound ∧
        (∀ e ∈ (childPhase step s children).2,
          s.allFound ⊆ e.before.allFound)) := by
  intro s children hls
  unfold childPhase
  refine processList_coverage step _ _ hstepA hcovF hcovE hstepS ?_ children s hls
  intro s' l e he
  simp at he

lemma crawlF_coverage (oracle : String → List String) (base : String)
    (maxDepth : Nat) :
    ∀ (fuel : Nat) (s : CrawlState) (url : String) (depth : Nat),
      (∀ v ∈ (crawlF oracle base maxDepth fuel s url depth).1.visited,
        v ∈ s.visited ∨ v = url ∨
          v ∈ (crawlF oracle base maxDepth fuel s url depth).1.allFound) ∧
      (∀ e ∈ (crawlF oracle base maxDepth fuel s url depth).2,
        ∀ v ∈ e.before.visited,
          v ∈ s.visited ∨ v = url ∨ v ∈ e.before.allFound) := by
  intro fuel
  induction fuel with
  | zero =>
    intro s url depth
    exact ⟨fun v hv => Or.inl hv, by simp [crawlF]⟩
  | succ fuel ih =>
    intro s url depth
    by_cases h : depth > maxDepth ∨ url ∈ s.visited
    · simp only [crawlF, if_pos h]
      exact ⟨fun v hv => Or.inl hv, by simp⟩
    · simp only [crawlF, if_neg h]
      have hstepA : ∀ (s' : CrawlState) (l : String),
          s'.allFound ⊆ (crawlF oracle base maxDepth fuel s' l (depth + 1)).1.allFound :=
        fun s' l => (crawlF_TraceOK oracle base maxDepth fuel s' l (depth + 1)).2.1
      have hcovF := fun (s' : CrawlState) (l : String) => (ih s' l (depth + 1)).1
      have hcovE := fun (s' : CrawlState) (l : String) => (ih s' l (depth + 1)).2
      have hstepS : ∀ (s' : CrawlState) (l : String),
          ∀ e ∈ (crawlF oracle base maxDepth fuel s' l (depth + 1)).2,
            s'.allFound ⊆ e.before.allFound :=
        fun s' l e he =>
          ((crawlF_TraceOK oracle base maxDepth fuel s' l (depth + 1)).2.2.1 e he).2.2
      obtain ⟨bF, bE, bA, bS⟩ := blogPhase_coverage
        (fun s' l => crawlF oracle base maxDepth fuel s' l (depth + 1))
        base url depth hstepA hcovF hcovE hstepS
        ⟨url :: s.visited, unionInto s.allFound ((oracle url).dedup),
          (url, ((oracle url).dedup).filter (fun l => is_child_ofB url l)) ::
            s.childrenOf⟩
        ((oracle url).dedup) (right_subset_unionInto _ _)
      obtain ⟨cF, cE, cA, cS⟩ := childPhase_coverage
        (fun s' l => crawlF oracle base maxDepth fuel s' l (depth + 1))
        hstepA hcovF hcovE hstepS
        (blogPhase (fun s' l => crawlF oracle base maxDepth fuel s' l (depth + 1))
          base url depth
          ⟨url :: s.visited, unionInto s.allFound ((oracle url).dedup),
            (url, ((oracle url).dedup).filter (fun l => is_child_ofB url l)) ::
              s.childrenOf⟩
          ((oracle url).dedup)).1
        (((oracle url).dedup).filter (fun l => is_child_ofB url l))
        (fun l hl => bA (right_subset_unionInto _ _ (List.mem_of_mem_filter hl)))
      constructor
      · intro v hv
        rcases cF v hv with hv1 | hv2
        · rcases bF v hv1 with hv3 | hv3
          · rcases List.mem_cons.mp hv3 with rfl | hv4
            · exact Or.inr (Or.inl rfl)
            · exact Or.inl hv4
          · exact Or.inr (Or.inr (cA hv3))
        · exact Or.inr (Or.inr hv2)
      · intro e he v hv
        rcases List.mem_cons.mp he with rfl | he1
        · exact Or.inl hv
        · rcases List.mem_append.mp he1 with he2 | he2
          · rcases bE e he2 v hv with hv3 | hv3
            · rcases List.mem_cons.mp hv3 with rfl | hv4
              · exact Or.inr (Or.inl rfl)
              · exact Or.inl hv4
            · exact Or.inr (Or.inr hv3)
          · rcases cE e he2 v hv with hv3 | hv3
            · rcases bF v hv3 with hv4 | hv4
              · rcases List.mem_cons.mp hv4 with rfl | hv5
                · exact Or.inr (Or.inl rfl)
                · exact Or.inl hv5
              · exact Or.inr (Or.inr (cS e he2 hv4))
            · exact Or.inr (Or.inr hv3)

lemma processList_visited_mono
    (step : CrawlState → String → CrawlState × List CrawlEvent)
    (cond : CrawlState → String → Bool)
    (emit : CrawlState → String → List CrawlEvent)
    (hstepV : ∀ s l, s.visited ⊆ (step s l).1.visited) :
    ∀ (ls : List String) (s : CrawlState),
      s.visited ⊆ (processList step cond emit s ls).1.visited := by
  intro ls
  induction ls with
  | nil => intro s; exact fun _ h => h
  | cons l rest ih =>
    intro s
    by_cases h : cond s l = true
    · simp only [processList, if_pos h]
      exact (hstepV s l).trans (ih (step s l).1)
    · simp only [processList, if_neg h]
      exact ih s

lemma processList_events
    (step : CrawlState → String → CrawlState × List CrawlEvent)
    (cond : CrawlState → String → Bool)
    (emit : CrawlState → String → List CrawlEvent)
    (Q : CrawlEvent → Prop)
    (hstep : ∀ s l, cond s l = true → ∀ e ∈ (step s l).2, Q e)
    (hemit : ∀ s l, cond s l = true → ∀ e ∈ emit s l, Q e) :
    ∀ (ls : List String) (s : CrawlState),
      ∀ e ∈ (processList step cond emit s ls).2, Q e := by
  intro ls
  induction ls with
  | nil => intro s e he; simp [processList] at he
  | cons l rest ih =>
    intro s e he
    by_cases h : cond s l = true
    · simp only [processList, if_pos h] at he
      rcases List.mem_append.mp he with he1 | he2
      · rcases List.mem_append.mp he1 with he1a | he1b
        · exact hemit s l h e he1a
        · exact hstep s l h e he1b
      · exact ih (step s l).1 e he2
    · simp only [processList, if_neg h] at he
      exact ih s e he

lemma processList_elem
    (step : CrawlState → String → CrawlState × List CrawlEvent)
    (cond : CrawlState → String → Bool)
    (emit : CrawlState → String → List CrawlEvent)
    (hstepV : ∀ s l, s.visited ⊆ (step s l).1.visited) :
    ∀ (ls : List String) (s : CrawlState), ∀ l ∈ ls, ∃ s',
      s'.visited ⊆ (processList step cond emit s ls).1.visited ∧
      ((cond s' l = true ∧
          ∀ e ∈ emit s' l, e ∈ (processList step cond emit s ls).2) ∨
        cond s' l = false) := by
  intro ls
  induction ls with
  | nil => intro s l hl; simp at hl
  | cons x rest ih =>
    intro s l hl
    by_cases h : cond s x = true
    · simp only [processList, if_pos h]
      rcases List.mem_cons.mp hl with rfl | hl2
      · refine ⟨s, ?_, ?_⟩
        · exact (hstepV s l).trans
            (processList_visited_mono step cond emit hstepV rest (step s l).1)
        · exact Or.inl ⟨h, fun e he =>
            List.mem_append.mpr (Or.inl (List.mem_append.mpr (Or.inl he)))⟩
      · obtain ⟨s', hsub, hor⟩ := ih (step s x).1 l hl2
        refine ⟨s', hsub, ?_⟩
        rcases hor with ⟨hc, hin⟩ | hc
        · exact Or.inl ⟨hc, fun e he => List.mem_append.mpr (Or.inr (hin e he))⟩
        · exact Or.inr hc
    · simp only [processList, if_neg h]
      rcases List.mem_cons.mp hl with rfl | hl2
      · refine ⟨s, processList_visited_mono step cond emit hstepV rest s, ?_⟩
        exact Or.inr (Bool.eq_false_iff.mpr h)
      · exact ih s l hl2

lemma processList_origin
    (step : CrawlState → String → CrawlState × List CrawlEvent)
    (cond : CrawlState → String → Bool)
    (emit : CrawlState → String → List CrawlEvent)
    (hstepV : ∀ s l, s.visited ⊆ (step s l).1.visited) :
    ∀ (ls : List String) (s : CrawlState),
      ∀ e ∈ (processList step cond emit s ls).2,
        (∃ s₀ l₀, e ∈ emit s₀ l₀) ∨
        (∃ s₀ l₀, cond s₀ l₀ = true ∧ e ∈ (step s₀ l₀).2 ∧
          (∀ x ∈ (step s₀ l₀).2, x ∈ (processList step cond emit s ls).2) ∧
          (step s₀ l₀).1.visited ⊆
            (processList step cond emit s ls).1.visited) := by
  intro ls
  induction ls with
  | nil => intro s e he; simp [processList] at he
  | cons l rest ih =>
    intro s e he
    by_cases h : cond s l = true
    · simp only [processList, if_pos h] at he ⊢
      rcases List.mem_append.mp he with he1 | he2
      · rcases List.mem_append.mp he1 with he1a | he1b
        · exact Or.inl ⟨s, l, he1a⟩
        · refine Or.inr ⟨s, l, h, he1b, ?_, ?_⟩
          · exact fun x hx =>
              List.mem_append.mpr (Or.inl (List.mem_append.mpr (Or.inr hx)))
          · exact processList_visited_mono step cond emit hstepV rest (step s l).1
      · rcases ih (step s l).1 e he2 with hcase | ⟨s₀, l₀, hc, hmem, hsub, hv⟩
        · exact Or.inl hcase
        · exact Or.inr ⟨s₀, l₀, hc, hmem,
            fun x hx => List.mem_append.mpr (Or.inr (hsub x hx)), hv⟩
    · simp only [processList, if_neg h] at he ⊢
      exact ih s e he

lemma processList_keys
    (step : CrawlState → String → CrawlState × List CrawlEvent)
    (cond : CrawlState → String → Bool)
    (emit : CrawlState → String → List CrawlEvent)
    (hstep : ∀ s l, KeysInv s →
      KeysInv (step s l).1 ∧ ∀ e ∈ (step s l).2, KeysInv e.before)
    (hemitB : ∀ s l, ∀ e ∈ emit s l, e.before = s) :
    ∀ (ls : List String) (s : CrawlState), KeysInv s →
      KeysInv (processList step cond emit s ls).1 ∧
        ∀ e ∈ (processList step cond emit s ls).2, KeysInv e.before := by
  intro ls
  induction ls with
  | nil => intro s hK; exact ⟨hK, by simp [processList]⟩
  | cons l rest ih =>
    intro s hK
    by_cases h : cond s l = true
    · simp only [processList, if_pos h]
      obtain ⟨k1, k2⟩ := hstep s l hK
      obtain ⟨k3, k4⟩ := ih (step s l).1 k1
      refine ⟨k3, ?_⟩
      intro e he
      rcases List.mem_append.mp he with he1 | he2
      · rcases List.mem_append.mp he1 with he1a | he1b
        · rw [hemitB s l e he1a]; exact hK
        · exact k2 e he1b
      · exact k4 e he2
    · simp only [processList, if_neg h]
      exact ih s hK

lemma blogPhase_keys
    (step : CrawlState → String → CrawlState × List CrawlEvent)
    (base url : String) (depth : Nat)
    (hstep : ∀ s l, KeysInv s →
      KeysInv (step s l).1 ∧ ∀ e ∈ (step s l).2, KeysInv e.before) :
    ∀ (s : CrawlState) (links : List String), KeysInv s →
      KeysInv (blogPhase step base url depth s links).1 ∧
        ∀ e ∈ (blogPhase step base url depth s links).2, KeysInv e.before := by
  intro s links hK
  unfold blogPhase
  split
  · refine processList_keys step _ _ hstep ?_ links s hK
    intro s' l e he
    simp only [List.mem_singleton] at he
    rw [he]
    rfl
  · exact ⟨hK, by simp⟩

lemma childPhase_keys
    (step : CrawlState → String → CrawlState × List CrawlEvent)
    (hstep : ∀ s l, KeysInv s →
      KeysInv (step s l).1 ∧ ∀ e ∈ (step s l).2, KeysInv e.before) :
    ∀ (s : CrawlState) (children : List String), KeysInv s →
      KeysInv (childPhase step s children).1 ∧
        ∀ e ∈ (childPhase step s children).2, KeysInv e.before := by
  intro s children hK
  unfold childPhase
  refine processList_keys step _ _ hstep ?_ children s hK
  intro s' l e he
  simp at he

lemma crawlF_keys (oracle : String → List String) (base : String)
    (maxDepth : Nat) :
    ∀ (fuel : Nat) (s : CrawlState) (url : String) (depth : Nat), KeysInv s →
      KeysInv (crawlF oracle base maxDepth fuel s url depth).1 ∧
        ∀ e ∈ (crawlF oracle base maxDepth fuel s url depth).2,
          KeysInv e.before := by
  intro fuel
  induction fuel with
  | zero => intro s url depth hK; exact ⟨hK, by simp [crawlF]⟩
  | succ fuel ih =>
    intro s url depth hK
    by_cases h : depth > maxDepth ∨ url ∈ s.visited
    · simp only [crawlF, if_pos h]
      exact ⟨hK, by simp⟩
    · simp only [crawlF, if_neg h]
      have hstep : ∀ (s' : CrawlState) (l : String), KeysInv s' →
          KeysInv (crawlF oracle base maxDepth fuel s' l (depth + 1)).1 ∧
            ∀ e ∈ (crawlF oracle base maxDepth fuel s' l (depth + 1)).2,
              KeysInv e.before :=
        fun s' l => ih s' l (depth + 1)
      have hKs3 : KeysInv
          ⟨url :: s.visited, unionInto s.allFound ((oracle url).dedup),
            (url, ((oracle url).dedup).filter (fun l => is_child_ofB url l)) ::
              s.childrenOf⟩ := by
        intro k hk
        rcases List.mem_cons.mp hk with rfl | hk2
        · exact List.mem_cons_self _ _
        · exact List.mem_cons_of_mem _ (hK k hk2)
      obtain ⟨b1, b2⟩ := blogPhase_keys
        (fun s' l => crawlF oracle base maxDepth fuel s' l (depth + 1))
        base url depth hstep _ ((oracle url).dedup) hKs3
      obtain ⟨c1, c2⟩ := childPhase_keys
        (fun s' l => crawlF oracle base maxDepth fuel s' l (depth + 1))
        hstep _ (((oracle url).dedup).filter (fun l => is_child_ofB url l)) b1
      refine ⟨c1, ?_⟩
      intro e he
      rcases List.mem_cons.mp he with rfl | he1
      · exact hK
      · rcases List.mem_append.mp he1 with he2 | he2
        · exact b2 e he2
        · exact c2 e he2

lemma blogPhase_events
    (step : CrawlState → String → CrawlState × List CrawlEvent)
    (base url : String) (depth : Nat) (Q : CrawlEvent → Prop)
    (hstep : ∀ s l, ∀ e ∈ (step s l).2, Q e)
    (hemit : blogsIn url = true → depth < 3 →
      ∀ (s' : CrawlState) (l : String),
        (is_same_domain base l && slashBlogsIn l &&
          ! decide (l ∈ s'.visited)) = true →
        Q (.blogCall url depth l s')) :
    ∀ (s : CrawlState) (links : List String),
      ∀ e ∈ (blogPhase step base url depth s links).2, Q e := by
  intro s links
  unfold blogPhase
  by_cases hc : blogsIn url = true ∧ depth < 3
  · rw [if_pos hc]
    refine processList_events step _ _ Q (fun s' l _ => hstep s' l) ?_ links s
    intro s' l hcnd e he
    simp only [List.mem_singleton] at he
    rw [he]
    exact hemit hc.1 hc.2 s' l hcnd
  · rw [if_neg hc]
    simp

lemma childPhase_events
    (step : CrawlState → String → CrawlState × List CrawlEvent)
    (Q : CrawlEvent → Prop)
    (hstep : ∀ s l, ∀ e ∈ (step s l).2, Q e) :
    ∀ (s : CrawlState) (children : List String),
      ∀ e ∈ (childPhase step s children).2, Q e := by
  intro s children
  unfold childPhase
  refine processList_events step _ _ Q (fun s' l _ => hstep s' l) ?_ children s
  intro s' l _ e he
  simp at he

lemma crawlF_blog_sound (oracle : String → List String) (base : String)
    (maxDepth : Nat) :
    ∀ (fuel : Nat) (s : CrawlState) (url : String) (depth : Nat),
      ∀ (p : String) (d : Nat) (l : String) (st : CrawlState),
        CrawlEvent.blogCall p d l st ∈
          (crawlF oracle base maxDepth fuel s url depth).2 →
        blogsIn p = true ∧ d < 3 ∧ is_same_domain base l = true ∧
          slashBlogsIn l = true ∧ l ∉ st.visited := by
  intro fuel
  induction fuel with
  | zero => intro s url depth p d l st he; simp [crawlF] at he
  | succ fuel ih =>
    intro s url depth p d l st he
    by_cases h : depth > maxDepth ∨ url ∈ s.visited
    · rw [crawlF, if_pos h] at he
      simp at he
    · rw [crawlF, if_neg h] at he
      rcases List.mem_cons.mp he with heq | he1
    -- the head is a `proc` event, not a `blogCall`
      · exact CrawlEvent.noConfusion heq
      · rcases List.mem_append.mp he1 with he2 | he2
        · refine blogPhase_events
            (fun s' l' => crawlF oracle base maxDepth fuel s' l' (depth + 1))
            base url depth
            (fun e => ∀ (p : String) (d : Nat) (l : String) (st : CrawlState),
              e = CrawlEvent.blogCall p d l st →
                blogsIn p = true ∧ d < 3 ∧ is_same_domain base l = true ∧
                  slashBlogsIn l = true ∧ l ∉ st.visited)
            (fun s' l' e hee => fun p' d' l'' st' heq =>
              ih s' l' (depth + 1) p' d' l'' st' (heq ▸ hee))
            ?_ _ _ _ he2 p d l st rfl
          intro hb hd s' l' hcnd p' d' l'' st' heq
          injection heq with h1 h2 h3 h4
          subst h1; subst h2; subst h3; subst h4
          rw [Bool.and_eq_true, Bool.and_eq_true] at hcnd
          obtain ⟨⟨hsd, hsb⟩, hnm⟩ := hcnd
          refine ⟨hb, hd, hsd, hsb, ?_⟩
          simpa using hnm
        · refine childPhase_events
            (fun s' l' => crawlF oracle base maxDepth fuel s' l' (depth + 1))
            (fun e => ∀ (p : String) (d : Nat) (l : String) (st : CrawlState),
              e = CrawlEvent.blogCall p d l st →
                blogsIn p = true ∧ d < 3 ∧ is_same_domain base l = true ∧
                  slashBlogsIn l = true ∧ l ∉ st.visited)
            (fun s' l' e hee => fun p' d' l'' st' heq =>
              ih s' l' (depth + 1) p' d' l'' st' (heq ▸ hee))
            _ _ _ he2 p d l st rfl

lemma crawlF_proc_sound (oracle : String → List String) (base : String)
    (maxDepth : Nat) :
    ∀ (fuel : Nat) (s : CrawlState) (url : String) (depth : Nat),
      ∀ (u : String) (d : Nat) (st : CrawlState) (lk : List String),
        CrawlEvent.proc u d st lk ∈
          (crawlF oracle base maxDepth fuel s url depth).2 →
        u ∉ st.visited ∧ lk = (oracle u).dedup ∧ ¬ d > maxDepth := by
  intro fuel
  induction fuel with
  | zero => intro s url depth u d st lk he; simp [crawlF] at he
  | succ fuel ih =>
    intro s url depth u d st lk he
    by_cases h : depth > maxDepth ∨ url ∈ s.visited
    · rw [crawlF, if_pos h] at he
      simp at he
    · rw [crawlF, if_neg h] at he
      rw [not_or] at h
      rcases List.mem_cons.mp he with heq | he1
      · injection heq with h1 h2 h3 h4
        subst h1; subst h2; subst h3; subst h4
        exact ⟨h.2, rfl, h.1⟩
      · rcases List.mem_append.mp he1 with he2 | he2
        · refine blogPhase_events
            (fun s' l' => crawlF oracle base maxDepth fuel s' l' (depth + 1))
            base url depth
            (fun e => ∀ (u : String) (d : Nat) (st : CrawlState)
              (lk : List String), e = CrawlEvent.proc u d st lk →
                u ∉ st.visited ∧ lk = (oracle u).dedup ∧ ¬ d > maxDepth)
            (fun s' l' e hee => fun u' d' st' lk' heq =>
              ih s' l' (depth + 1) u' d' st' lk' (heq ▸ hee))
            ?_ _ _ _ he2 u d st lk rfl
          intro _ _ s' l' _ u' d' st' lk' heq
          exact CrawlEvent.noConfusion heq
        · exact childPhase_events
            (fun s' l' => crawlF oracle base maxDepth fuel s' l' (depth + 1))
            (fun e => ∀ (u : String) (d : Nat) (st : CrawlState)
              (lk : List String), e = CrawlEvent.proc u d st lk →
                u ∉ st.visited ∧ lk = (oracle u).dedup ∧ ¬ d > maxDepth)
            (fun s' l' e hee => fun u' d' st' lk' heq =>
              ih s' l' (depth + 1) u' d' st' lk' (heq ▸ hee))
            _ _ _ he2 u d st lk rfl

lemma blogPhase_elem
    (step : CrawlState → String → CrawlState × List CrawlEvent)
    (base url : String) (depth : Nat)
    (hstepV : ∀ s l, s.visited ⊆ (step s l).1.visited)
    (hcond : blogsIn url = true ∧ depth < 3) :
    ∀ (s : CrawlState) (links : List String), ∀ l ∈ links, ∃ s',
      s'.visited ⊆ (blogPhase step base url depth s links).1.visited ∧
      (CrawlEvent.blogCall url depth l s' ∈
          (blogPhase step base url depth s links).2 ∨
        (is_same_domain base l && slashBlogsIn l &&
          ! decide (l ∈ s'.visited)) = false) := by
  intro s links l hl
  unfold blogPhase
  rw [if_pos hcond]
  obtain ⟨s', hsub, hor⟩ := processList_elem step _ _ hstepV links s l hl
  refine ⟨s', hsub, ?_⟩
  rcases hor with ⟨_, hin⟩ | hc
  · exact Or.inl (hin _ (by simp))
  · exact Or.inr hc

lemma blogPhase_origin
    (step : CrawlState → String → CrawlState × List CrawlEvent)
    (base url : String) (depth : Nat)
    (hstepV : ∀ s l, s.visited ⊆ (step s l).1.visited) :
    ∀ (s : CrawlState) (links : List String),
      ∀ e ∈ (blogPhase step base url depth s links).2,
        (∃ s₀ l₀, e = CrawlEvent.blogCall url depth l₀ s₀) ∨
        (∃ s₀ l₀, e ∈ (step s₀ l₀).2 ∧
          (∀ x ∈ (step s₀ l₀).2,
            x ∈ (blogPhase step base url depth s links).2) ∧
          (step s₀ l₀).1.visited ⊆
            (blogPhase step base url depth s links).1.visited) := by
  intro s links e he
  unfold blogPhase at he ⊢
  by_cases hc : blogsIn url = true ∧ depth < 3
  · rw [if_pos hc] at he ⊢
    rcases processList_origin step _ _ hstepV links s e he with
      ⟨s₀, l₀, hee⟩ | ⟨s₀, l₀, _, hmem, hcont, hv⟩
    · left
      exact ⟨s₀, l₀, by simpa using hee⟩
    · right
      exact ⟨s₀, l₀, hmem, hcont, hv⟩
  · rw [if_neg hc] at he
    simp at he

lemma childPhase_origin
    (step : CrawlState → String → CrawlState × List CrawlEvent)
    (hstepV : ∀ s l, s.visited ⊆ (step s l).1.visited) :
    ∀ (s : CrawlState) (children : List String),
      ∀ e ∈ (childPhase step s children).2,
        ∃ s₀ l₀, e ∈ (step s₀ l₀).2 ∧
          (∀ x ∈ (step s₀ l₀).2, x ∈ (childPhase step s children).2) ∧
          (step s₀ l₀).1.visited ⊆ (childPhase step s children).1.visited := by
  intro s children e he
  unfold childPhase at he ⊢
  rcases processList_origin step _ _ hstepV children s e he with
    ⟨s₀, l₀, hee⟩ | ⟨s₀, l₀, _, hmem, hcont, hv⟩
  · simp at hee
  · exact ⟨s₀, l₀, hmem, hcont, hv⟩

lemma childPhase_visited_mono
    (step : CrawlState → String → CrawlState × List CrawlEvent)
    (hstepV : ∀ s l, s.visited ⊆ (step s l).1.visited) :
    ∀ (s : CrawlState) (children : List String),
      s.visited ⊆ (childPhase step s children).1.visited := by
  intro s children
  unfold childPhase
  exact processList_visited_mono step _ _ hstepV children s

lemma crawlF_blog_complete (oracle : String → List String) (base : String)
    (maxDepth : Nat) :
    ∀ (fuel : Nat) (s : CrawlState) (url : String) (depth : Nat),
      ∀ (u : String) (d : Nat) (st : CrawlState) (lk : List String),
        CrawlEvent.proc u d st lk ∈
          (crawlF oracle base maxDepth fuel s url depth).2 →
        blogsIn u = true → d < 3 →
        ∀ l ∈ lk, is_same_domain base l = true → slashBlogsIn l = true →
          ((∃ st', CrawlEvent.blogCall u d l st' ∈
              (crawlF oracle base maxDepth fuel s url depth).2) ∨
            l ∈ (crawlF oracle base maxDepth fuel s url depth).1.visited) := by
  intro fuel
  induction fuel with
  | zero => intro s url depth u d st lk he; simp [crawlF] at he
  | succ fuel ih =>
    intro s url depth u d st lk he hb hd l hl hsd hsb
    by_cases h : depth > maxDepth ∨ url ∈ s.visited
    · rw [crawlF, if_pos h] at he
      simp at he
    · rw [crawlF, if_neg h] at he ⊢
      have hstepV : ∀ (s' : CrawlState) (l' : String),
          s'.visited ⊆ (crawlF oracle base maxDepth fuel s' l' (depth + 1)).1.visited :=
        fun s' l' => (crawlF_TraceOK oracle base maxDepth fuel s' l' (depth + 1)).1
      rcases List.mem_cons.mp he with heq | he1
      · injection heq with h1 h2 h3 h4
        subst h1; subst h2; subst h3; subst h4
        obtain ⟨s', hsub, hor⟩ := blogPhase_elem
          (fun s' l' => crawlF oracle base maxDepth fuel s' l' (d + 1))
          base u d hstepV ⟨hb, hd⟩
          ⟨u :: st.visited, unionInto st.allFound ((oracle u).dedup),
            (u, ((oracle u).dedup).filter (fun l => is_child_ofB u l)) ::
              st.childrenOf⟩
          ((oracle u).dedup) l hl
        rcases hor with hin | hc
        · exact Or.inl ⟨s',
            List.mem_cons_of_mem _ (List.mem_append.mpr (Or.inl hin))⟩
        · right
          have hlv : l ∈ s'.visited := by
            simp [hsd, hsb] at hc
            exact hc
          exact childPhase_visited_mono
            (fun s' l' => crawlF oracle base maxDepth fuel s' l' (d + 1))
            hstepV _ _ (hsub hlv)
      · rcases List.mem_append.mp he1 with heB | heC
        · rcases blogPhase_origin
            (fun s' l' => crawlF oracle base maxDepth fuel s' l' (depth + 1))
            base url depth hstepV
            ⟨url :: s.visited, unionInto s.allFound ((oracle url).dedup),
              (url, ((oracle url).dedup).filter (fun l => is_child_ofB url l)) ::
                s.childrenOf⟩
            ((oracle url).dedup) (CrawlEvent.proc u d st lk) heB with
            ⟨s₀, l₀, heq⟩ | ⟨s₀, l₀, hmem, hcont, hv⟩
          · exact CrawlEvent.noConfusion heq
          · rcases ih s₀ l₀ (depth + 1) u d st lk hmem hb hd l hl hsd hsb with
              ⟨st', hst'⟩ | hvis
            · exact Or.inl ⟨st', List.mem_cons_of_mem _
                (List.mem_append.mpr (Or.inl (hcont _ hst')))⟩
            · exact Or.inr (childPhase_visited_mono
                (fun s' l' => crawlF oracle base maxDepth fuel s' l' (depth + 1))
                hstepV _ _ (hv hvis))
        · rcases childPhase_origin
            (fun s' l' => crawlF oracle base maxDepth fuel s' l' (depth + 1))
            hstepV _ _ (CrawlEvent.proc u d st lk) heC with
            ⟨s₀, l₀, hmem, hcont, hv⟩
          rcases ih s₀ l₀ (depth + 1) u d st lk hmem hb hd l hl hsd hsb with
            ⟨st', hst'⟩ | hvis
          · exact Or.inl ⟨st', List.mem_cons_of_mem _
              (List.mem_append.mpr (Or.inr (hcont _ hst')))⟩
          · exact Or.inr (hv hvis)

lemma mem_procUrls {u : String} {tr : List CrawlEvent} :
    u ∈ procUrls tr ↔
      ∃ d st lk, CrawlEvent.proc u d st lk ∈ tr := by
  unfold procUrls
  rw [List.mem_filterMap]
  constructor
  · rintro ⟨e, he, hm⟩
    cases e with
    | proc u' d st lk =>
      simp only [Option.some.injEq] at hm
      subst hm
      exact ⟨d, st, lk, he⟩
    | blogCall p d l st => simp at hm
  · rintro ⟨d, st, lk, he⟩
    exact ⟨.proc u d st lk, he, rfl⟩

lemma procUrls_nodup : ∀ (tr : List CrawlEvent),
    List.Pairwise (fun a b => a.lowerVisited ⊆ b.before.visited) tr →
    (∀ (u : String) (d : Nat) (st : CrawlState) (lk : List String),
      CrawlEvent.proc u d st lk ∈ tr → u ∉ st.visited) →
    (procUrls tr).Nodup := by
  intro tr
  induction tr with
  | nil => intro _ _; simp [procUrls]
  | cons e rest ih =>
    intro hp hs
    rw [List.pairwise_cons] at hp
    cases e with
    | blogCall p d l st =>
      show (procUrls rest).Nodup
      exact ih hp.2
        (fun u d' st' lk' hm => hs u d' st' lk' (List.mem_cons_of_mem _ hm))
    | proc u d st lk =>
      show (u :: procUrls rest).Nodup
      rw [List.nodup_cons]
      constructor
      · intro hmem
        obtain ⟨d', st', lk', he'⟩ := mem_procUrls.mp hmem
        have h1 := hp.1 _ he'
        have h2 : u ∈ st'.visited := h1 (List.mem_cons_self _ _)
        exact hs u d' st' lk' (List.mem_cons_of_mem _ he') h2
      · exact ih hp.2
          (fun u' d' st' lk' hm => hs u' d' st' lk' (List.mem_cons_of_mem _ hm))

/-- C2: the traversal is a total function of its (finitely-branching)
link oracle — its embedding is accepted by structural recursion on the
depth budget, which is the code's `depth > max_depth` guard — and for
every run: the processed URLs are pairwise distinct (each URL visited at
most once), every processed URL was absent from `visited` when reached
and is in the visited set its links are fetched under, and the visited
set only ever grows along the trace (no URL is ever removed or
revisited). -/
theorem C2_crawl_terminates_visits_once_monotone :
    ∀ (oracle : String → List String) (base : String) (maxDepth : Nat)
      (s : CrawlState) (url : String) (depth : Nat),
      (procUrls (crawl_recursive oracle base maxDepth s url depth).2).Nodup ∧
      (∀ (u : String) (d : Nat) (st : CrawlState) (lk : List String),
        CrawlEvent.proc u d st lk ∈
            (crawl_recursive oracle base maxDepth s url depth).2 →
          u ∉ st.visited ∧
          u ∈ (CrawlEvent.proc u d st lk).lowerVisited ∧
          lk = (oracle u).dedup) ∧
      s.visited ⊆ (crawl_recursive oracle base maxDepth s url depth).1.visited ∧
      (∀ e ∈ (crawl_recursive oracle base maxDepth s url depth).2,
        s.visited ⊆ e.before.visited ∧
        e.before.visited ⊆ e.lowerVisited ∧
        e.lowerVisited ⊆
          (crawl_recursive oracle base maxDepth s url depth).1.visited) ∧
      List.Pairwise (fun a b => a.lowerVisited ⊆ b.before.visited)
        (crawl_recursive oracle base maxDepth s url depth).2 := by
  intro oracle base maxDepth s url depth
  unfold crawl_recursive
  have hT := crawlF_TraceOK oracle base maxDepth (maxDepth + 1 - depth) s url depth
  refine ⟨?_, ?_, hT.1, ?_, hT.2.2.2⟩
  · refine procUrls_nodup _ hT.2.2.2 ?_
    intro u d st lk he
    exact (crawlF_proc_sound oracle base maxDepth (maxDepth + 1 - depth)
      s url depth u d st lk he).1
  · intro u d st lk he
    obtain ⟨h1, h2, _⟩ := crawlF_proc_sound oracle base maxDepth
      (maxDepth + 1 - depth) s url depth u d st lk he
    exact ⟨h1, List.mem_cons_self _ _, h2⟩
  · intro e he
    obtain ⟨h1, h2, _⟩ := hT.2.2.1 e he
    exact ⟨h1, before_visited_subset_lower e, h2⟩

/-- C2 witness: the conclusions at a concrete one-page crawl, extracted
by applying the theorem (its inner membership hypotheses discharged by
computation). -/
theorem C2_witness :
    (procUrls (crawl_recursive (fun _ => ["https://x.com/a"]) "https://x.com"
      5 ⟨[], [], []⟩ "https://x.com" 0).2).Nodup ∧
    "https://x.com" ∉ (⟨[], [], []⟩ : CrawlState).visited := by
  have h := C2_crawl_terminates_visits_once_monotone
    (fun _ => ["https://x.com/a"]) "https://x.com" 5 ⟨[], [], []⟩
    "https://x.com" 0
  refine ⟨h.1, ?_⟩
  exact (h.2.1 "https://x.com" 0 ⟨[], [], []⟩ ["https://x.com/a"]
    (by decide)).1

/-- C5, amended: the blog-deepening recursion is keyed on `'blogs' in
url` over the FULL URL string (not the URL's path, as the claim states);
every blog-deepening call has a parent whose full URL contains "blogs",
depth below 3, and a same-domain `/blogs/` link not yet visited; and
conversely, whenever a processed page's full URL contains "blogs" at
depth below 3, every same-domain extracted link containing `/blogs/` is
either recursed into by the blog loop or already visited. -/
theorem C5_blog_deepening_characterization :
    ∀ (oracle : String → List String) (base : String) (maxDepth : Nat)
      (s : CrawlState) (url : String) (depth : Nat),
      (∀ (p : String) (d : Nat) (l : String) (st : CrawlState),
        CrawlEvent.blogCall p d l st ∈
            (crawl_recursive oracle base maxDepth s url depth).2 →
          blogsIn p = true ∧ d < 3 ∧ is_same_domain base l = true ∧
            slashBlogsIn l = true ∧ l ∉ st.visited) ∧
      (∀ (u : String) (d : Nat) (st : CrawlState) (lk : List String),
        CrawlEvent.proc u d st lk ∈
            (crawl_recursive oracle base maxDepth s url depth).2 →
          blogsIn u = true → d < 3 →
          ∀ l ∈ lk, is_same_domain base l = true → slashBlogsIn l = true →
            ((∃ st', CrawlEvent.blogCall u d l st' ∈
                (crawl_recursive oracle base maxDepth s url depth).2) ∨
              l ∈ (crawl_recursive oracle base maxDepth s url depth).1.visited)) := by
  intro oracle base maxDepth s url depth
  unfold crawl_recursive
  exact ⟨crawlF_blog_sound oracle base maxDepth (maxDepth + 1 - depth)
      s url depth,
    crawlF_blog_complete oracle base maxDepth (maxDepth + 1 - depth)
      s url depth⟩

/-- C5 counterexample: the page `https://x.com/team?dept=blogs` has
"blogs" only in its query string — its PATH `/team` does not contain
"blogs" — yet the blog-deepening recursion fires for it (the `blogCall`
event is in the trace and the non-child `/blogs/` link gets visited), so
the claim's trigger "url's path contains blogs" is wrong: the code tests
the full URL string. -/
theorem C5_counterexample :
    (urlparse "https://x.com/team?dept=blogs").map
      (fun P => containsSub "blogs".data P.path) = .ok false ∧
    CrawlEvent.blogCall "https://x.com/team?dept=blogs" 0
        "https://x.com/whatever/blogs/deep/post"
        ⟨["https://x.com/team?dept=blogs"],
          ["https://x.com/whatever/blogs/deep/post"],
          [("https://x.com/team?dept=blogs", [])]⟩ ∈
      (crawl_recursive
        (fun u => if u = "https://x.com/team?dept=blogs"
          then ["https://x.com/whatever/blogs/deep/post"] else [])
        "https://x.com" 5 ⟨[], [], []⟩ "https://x.com/team?dept=blogs" 0).2 ∧
    "https://x.com/whatever/blogs/deep/post" ∈
      (crawl_recursive
        (fun u => if u = "https://x.com/team?dept=blogs"
          then ["https://x.com/whatever/blogs/deep/post"] else [])
        "https://x.com" 5 ⟨[], [], []⟩ "https://x.com/team?dept=blogs" 0).1.visited := by
  decide

/-- C5 witness: the soundness half applied to the concrete blog-deepening
call of the counterexample oracle. -/
theorem C5_witness :
    blogsIn "https://x.com/team?dept=blogs" = true ∧ 0 < 3 ∧
    is_same_domain "https://x.com" "https://x.com/whatever/blogs/deep/post" = true ∧
    slashBlogsIn "https://x.com/whatever/blogs/deep/post" = true ∧
    "https://x.com/whatever/blogs/deep/post" ∉
      (⟨["https://x.com/team?dept=blogs"],
        ["https://x.com/whatever/blogs/deep/post"],
        [("https://x.com/team?dept=blogs", [])]⟩ : CrawlState).visited := by
  exact (C5_blog_deepening_characterization
    (fun u => if u = "https://x.com/team?dept=blogs"
      then ["https://x.com/whatever/blogs/deep/post"] else [])
    "https://x.com" 5 ⟨[], [], []⟩ "https://x.com/team?dept=blogs" 0).1
    "https://x.com/team?dept=blogs" 0 "https://x.com/whatever/blogs/deep/post"
    ⟨["https://x.com/team?dept=blogs"],
      ["https://x.com/whatever/blogs/deep/post"],
      [("https://x.com/team?dept=blogs", [])]⟩ (by decide)

lemma crawl_site_ok (oracle : String → List String) (base : String)
    (maxDepth : Nat) (sitemapUrls : List String) (p : UrlParts)
    (hp : urlparse base = .ok p) :
    crawl_site oracle base maxDepth sitemapUrls =
      if base ≠ synth_root p then
        .ok ((crawlF oracle base maxDepth (maxDepth + 1)
            (crawlF oracle base maxDepth (maxDepth + 1)
              ⟨[], unionInto [] sitemapUrls, []⟩ (synth_root p) 0).1 base 0).1,
          (crawlF oracle base maxDepth (maxDepth + 1)
            ⟨[], unionInto [] sitemapUrls, []⟩ (synth_root p) 0).2 ++
          (crawlF oracle base maxDepth (maxDepth + 1)
            (crawlF oracle base maxDepth (maxDepth + 1)
              ⟨[], unionInto [] sitemapUrls, []⟩ (synth_root p) 0).1 base 0).2)
      else .ok (crawlF oracle base maxDepth (maxDepth + 1)
          ⟨[], unionInto [] sitemapUrls, []⟩ (synth_root p) 0) := by
  unfold crawl_site
  rw [hp]
  rfl

/-- C4, amended: after every step and at completion of `crawl_site`,
`visited ⊆ allFoundLinks ∪ {root, baseUrl}` — the base URL must be added
to the claim's `{root}` because `crawl_site` issues a second traversal
seeded at the base URL, which enters `visited` without ever being a
discovered link — and every key of `childrenOf` is in `visited`. -/
theorem C4_crawl_site_invariant :
    ∀ (oracle : String → List String) (base : String) (maxDepth : Nat)
      (sitemapUrls : List String) (p : UrlParts) (st : CrawlState)
      (tr : List CrawlEvent),
      urlparse base = .ok p →
      crawl_site oracle base maxDepth sitemapUrls = .ok (st, tr) →
      ((∀ v ∈ st.visited, v ∈ st.allFound ∨ v = synth_root p ∨ v = base) ∧
        (∀ k ∈ keysOf st, k ∈ st.visited) ∧
        (∀ e ∈ tr,
          (∀ v ∈ e.before.visited,
            v ∈ e.before.allFound ∨ v = synth_root p ∨ v = base) ∧
          (∀ k ∈ keysOf e.before, k ∈ e.before.visited))) := by
  intro oracle base maxDepth sitemapUrls p st tr hp hcs
  rw [crawl_site_ok oracle base maxDepth sitemapUrls p hp] at hcs
  have hK0 : KeysInv (⟨[], unionInto [] sitemapUrls, []⟩ : CrawlState) := by
    intro k hk
    simp [keysOf] at hk
  by_cases hb : base ≠ synth_root p
  · rw [if_pos hb] at hcs
    injection hcs with h'
    have hst : (crawlF oracle base maxDepth (maxDepth + 1)
        (crawlF oracle base maxDepth (maxDepth + 1)
          ⟨[], unionInto [] sitemapUrls, []⟩ (synth_root p) 0).1 base 0).1 = st :=
      congrArg Prod.fst h'
    have htr : (crawlF oracle base maxDepth (maxDepth + 1)
          ⟨[], unionInto [] sitemapUrls, []⟩ (synth_root p) 0).2 ++
        (crawlF oracle base maxDepth (maxDepth + 1)
          (crawlF oracle base maxDepth (maxDepth + 1)
            ⟨[], unionInto [] sitemapUrls, []⟩ (synth_root p) 0).1 base 0).2 = tr :=
      congrArg Prod.snd h'
    subst hst
    subst htr
    have cov1 := crawlF_coverage oracle base maxDepth (maxDepth + 1)
      ⟨[], unionInto [] sitemapUrls, []⟩ (synth_root p) 0
    have cov2 := crawlF_coverage oracle base maxDepth (maxDepth + 1)
      (crawlF oracle base maxDepth (maxDepth + 1)
        ⟨[], unionInto [] sitemapUrls, []⟩ (synth_root p) 0).1 base 0
    have hT2 := crawlF_TraceOK oracle base maxDepth (maxDepth + 1)
      (crawlF oracle base maxDepth (maxDepth + 1)
        ⟨[], unionInto [] sitemapUrls, []⟩ (synth_root p) 0).1 base 0
    have k1 := crawlF_keys oracle base maxDepth (maxDepth + 1)
      ⟨[], unionInto [] sitemapUrls, []⟩ (synth_root p) 0 hK0
    have k2 := crawlF_keys oracle base maxDepth (maxDepth + 1)
      (crawlF oracle base maxDepth (maxDepth + 1)
        ⟨[], unionInto [] sitemapUrls, []⟩ (synth_root p) 0).1 base 0 k1.1
    refine ⟨?_, k2.1, ?_⟩
    · intro v hv
      rcases cov2.1 v hv with h0 | h0 | h0
      · rcases cov1.1 v h0 with h1 | h1 | h1
        · simp at h1
        · exact Or.inr (Or.inl h1)
        · exact Or.inl (hT2.2.1 h1)
      · exact Or.inr (Or.inr h0)
      · exact Or.inl h0
    · intro e he
      rcases List.mem_append.mp he with he1 | he2
      · refine ⟨?_, k1.2 e he1⟩
        intro v hv
        rcases cov1.2 e he1 v hv with h0 | h0 | h0
        · simp at h0
        · exact Or.inr (Or.inl h0)
        · exact Or.inl h0
      · refine ⟨?_, k2.2 e he2⟩
        intro v hv
        rcases cov2.2 e he2 v hv with h0 | h0 | h0
        · rcases cov1.1 v h0 with h1 | h1 | h1
          · simp at h1
          · exact Or.inr (Or.inl h1)
          · exact Or.inl ((hT2.2.2.1 e he2).2.2 h1)
        · exact Or.inr (Or.inr h0)
        · exact Or.inl h0
  · rw [if_neg hb] at hcs
    injection hcs with h'
    have hst : (crawlF oracle base maxDepth (maxDepth + 1)
        ⟨[], unionInto [] sitemapUrls, []⟩ (synth_root p) 0).1 = st :=
      congrArg Prod.fst h'
    have htr : (crawlF oracle base maxDepth (maxDepth + 1)
        ⟨[], unionInto [] sitemapUrls, []⟩ (synth_root p) 0).2 = tr :=
      congrArg Prod.snd h'
    subst hst
    subst htr
    have cov1 := crawlF_coverage oracle base maxDepth (maxDepth + 1)
      ⟨[], unionInto [] sitemapUrls, []⟩ (synth_root p) 0
    have k1 := crawlF_keys oracle base maxDepth (maxDepth + 1)
      ⟨[], unionInto [] sitemapUrls, []⟩ (synth_root p) 0 hK0
    refine ⟨?_, k1.1, ?_⟩
    · intro v hv
      rcases cov1.1 v hv with h0 | h0 | h0
      · simp at h0
      · exact Or.inr (Or.inl h0)
      · exact Or.inl h0
    · intro e he
      refine ⟨?_, k1.2 e he⟩
      intro v hv
      rcases cov1.2 e he v hv with h0 | h0 | h0
      · simp at h0
      · exact Or.inr (Or.inl h0)
      · exact Or.inl h0

/-- C4 counterexample: crawling base `https://x.com/hidden` against a
site with no links at all leaves `https://x.com/hidden` in `visited`
while `allFoundLinks` is empty and the synthetic root is
`https://x.com`, so `visited ⊆ allFoundLinks ∪ {root}` fails as claimed
(the base URL is the missing element). -/
theorem C4_counterexample :
    (crawl_site (fun _ => []) "https://x.com/hidden" 5 []).map
      (fun r => decide ("https://x.com/hidden" ∈ r.1.visited) &&
        ! decide ("https://x.com/hidden" ∈ r.1.allFound) &&
        ! decide (("https://x.com/hidden" : String) = "https://x.com")) =
      .ok true ∧
    (urlparse "https://x.com/hidden").map synth_root = .ok "https://x.com" := by
  decide

/-- C4 witness: the amended invariant applied to a concrete crawl of
`https://x.com`, at the visited URL `https://x.com`. -/
theorem C4_witness :
    "https://x.com" ∈
        (⟨["https://x.com"], [], [("https://x.com", [])]⟩ : CrawlState).allFound ∨
      "https://x.com" = synth_root
        ⟨"https".data, "x.com".data, [], [], [], []⟩ ∨
      ("https://x.com" : String) = "https://x.com" := by
  exact (C4_crawl_site_invariant (fun _ => []) "https://x.com" 5 []
    ⟨"https".data, "x.com".data, [], [], [], []⟩
    ⟨["https://x.com"], [], [("https://x.com", [])]⟩
    [CrawlEvent.proc "https://x.com" 0 ⟨[], [], []⟩ []]
    (by decide) (by decide)).1 "https://x.com" (by decide)

lemma keepLink_some (base url t u : String)
    (h : keepLink base url t = some u) :
    is_same_domain base t = true ∧ clean_url t = .ok u ∧
      "http".data.isPrefixOf u.data = true ∧ u ≠ url ∧
      endsWithExt u.data = false ∧ '#' ∉ u.data := by
  unfold keepLink at h
  by_cases hsd : is_same_domain base t = true
  · rw [if_pos hsd] at h
    cases hcl : clean_url t with
    | ok c =>
      rw [hcl] at h
      have h2 : (if "http".data.isPrefixOf c.data = true ∧ c ≠ url ∧
          endsWithExt c.data = false ∧ '#' ∉ c.data then some c else none) =
          some u := h
      by_cases hcond : "http".data.isPrefixOf c.data = true ∧ c ≠ url ∧
          endsWithExt c.data = false ∧ '#' ∉ c.data
      · rw [if_pos hcond] at h2
        injection h2 with h'
        subst h'
        exact ⟨hsd, rfl, hcond.1, hcond.2.1, hcond.2.2.1, hcond.2.2.2⟩
      · rw [if_neg hcond] at h2
        cases h2
    | error e =>
      rw [hcl] at h
      cases h
  · rw [if_neg hsd] at h
    cases h

lemma extractLoop_mem (base url u : String) :
    ∀ (targets acc : List String),
      u ∈ extractLoop base url acc targets →
      u ∈ acc ∨ ∃ t ∈ targets, keepLink base url t = some u := by
  intro targets
  induction targets with
  | nil => intro acc h; exact Or.inl h
  | cons t ts ih =>
    intro acc h
    simp only [extractLoop] at h
    cases hpt : urlparse t with
    | error e =>
      rw [hpt] at h
      have h' : u ∈ acc := h
      exact Or.inl h'
    | ok P =>
      rw [hpt] at h
      cases hk2 : keepLink base url t with
      | some c =>
        rw [hk2] at h
        have h' : u ∈ extractLoop base url
            (if c ∈ acc then acc else acc ++ [c]) ts := h
        rcases ih _ h' with h1 | ⟨t', ht', hk⟩
        · by_cases hc : c ∈ acc
          · rw [if_pos hc] at h1
            exact Or.inl h1
          · rw [if_neg hc] at h1
            rcases List.mem_append.mp h1 with h3 | h3
            · exact Or.inl h3
            · simp only [List.mem_singleton] at h3
              subst h3
              exact Or.inr ⟨t, by simp, hk2⟩
        · exact Or.inr ⟨t', List.mem_cons_of_mem _ ht', hk⟩
      | none =>
        rw [hk2] at h
        have h' : u ∈ extractLoop base url acc ts := h
        rcases ih _ h' with h1 | ⟨t', ht', hk⟩
        · exact Or.inl h1
        · exact Or.inr ⟨t', List.mem_cons_of_mem _ ht', hk⟩

lemma extractLoop_stop (base url t e : String)
    (hfail : urlparse t = .error e) :
    ∀ (ts₁ : List String), ∀ (ts₂ acc : List String),
      extractLoop base url acc (ts₁ ++ t :: ts₂) =
        extractLoop base url acc ts₁ := by
  intro ts₁
  induction ts₁ with
  | nil =>
    intro ts₂ acc
    show extractLoop base url acc (t :: ts₂) = acc
    simp only [extractLoop]
    rw [hfail]
  | cons t' ts₁' ih =>
    intro ts₂ acc
    simp only [List.cons_append, extractLoop]
    cases hpt : urlparse t' with
    | error e' => rfl
    | ok P =>
      cases hk : keepLink base url t' with
      | some c => exact ih ts₂ _
      | none => exact ih ts₂ acc

/-- C6, amended: every element of the returned link set comes from a
same-domain target, normalized by dropping the fragment; it differs from
the origin URL, starts with "http", contains no fragment marker, and the
FULL normalized URL string (query included — not the path, as the claim
states) does not end in a known non-content extension. -/
theorem C6_extract_links_filter :
    ∀ (base url : String) (targets : List String) (u : String),
      u ∈ extract_links base url targets →
      ∃ t ∈ targets, is_same_domain base t = true ∧ clean_url t = .ok u ∧
        "http".data.isPrefixOf u.data = true ∧ u ≠ url ∧
        endsWithExt u.data = false ∧ '#' ∉ u.data := by
  intro base url targets u hu
  unfold extract_links at hu
  rcases extractLoop_mem base url u targets [] hu with h | ⟨t, ht, hk⟩
  · simp at h
  · exact ⟨t, ht, keepLink_some base url t u hk⟩

/-- C6 counterexample: the target `https://x.com/a.jpg?v=1` has a path
ending in `.jpg`, yet it is returned by link extraction — the code's
`endswith` check runs on the whole cleaned URL string, which here ends
in the query `?v=1`. -/
theorem C6_counterexample :
    extract_links "https://x.com" "https://x.com"
        ["https://x.com/a.jpg?v=1"] = ["https://x.com/a.jpg?v=1"] ∧
    (urlparse "https://x.com/a.jpg?v=1").map
      (fun P => ".jpg".data.isSuffixOf P.path) = .ok true := by
  decide

/-- C6 witness: the amended filter facts for a concrete extracted link,
via the theorem. -/
theorem C6_witness :
    is_same_domain "https://x.com" "https://x.com/about" = true ∧
    clean_url "https://x.com/about" = .ok "https://x.com/about" ∧
    "http".data.isPrefixOf "https://x.com/about".data = true ∧
    ("https://x.com/about" : String) ≠ "https://x.com" ∧
    endsWithExt "https://x.com/about".data = false ∧
    '#' ∉ "https://x.com/about".data := by
  obtain ⟨t, ht, hprops⟩ := C6_extract_links_filter "https://x.com"
    "https://x.com" ["https://x.com/about"] "https://x.com/about" (by decide)
  have ht' : t = "https://x.com/about" := by simpa using ht
  subst ht'
  exact hprops

/-- C7, amended: a failed render yields the empty link set, but an
exception raised DURING link extraction (a target whose resolution
raises mid-loop) yields the PARTIALLY ACCUMULATED set of links
collected before the failing target — not the empty set; a crawl
against a renderer failing on one page equals the crawl against a
renderer returning an empty page there (so the traversal continues with
the remaining siblings and ancestors unchanged); driver-initialization
failure aborts the job with that error before any traversal, and with a
working driver and a parseable base URL the job always produces a
sitemap. -/
theorem C7_page_failures_recoverable :
    (∀ (base url e : String), get_page_links base url (.error e) = []) ∧
    (∀ (base url : String) (ts₁ : List String) (t : String)
      (ts₂ : List String) (e : String),
      urlparse t = .error e →
      get_page_links base url (.ok (ts₁ ++ t :: ts₂)) =
        extract_links base url ts₁) ∧
    (∀ (base : String) (maxDepth fuel : Nat) (s : CrawlState) (url : String)
      (depth : Nat) (r₁ r₂ : String → Except String (List String))
      (pg : String),
      (∀ u, u ≠ pg → r₁ u = r₂ u) →
      (∃ e, r₁ pg = .error e) → r₂ pg = .ok [] →
      crawlF (fun u => get_page_links base u (r₁ u)) base maxDepth fuel
          s url depth =
        crawlF (fun u => get_page_links base u (r₂ u)) base maxDepth fuel
          s url depth) ∧
    (∀ (oracle : String → List String) (base : String) (maxDepth : Nat)
      (sitemapUrls : List String) (fuel : Nat) (e : String),
      generate_sitemap (.error e) oracle base maxDepth sitemapUrls fuel =
        .error e) ∧
    (∀ (oracle : String → List String) (base : String) (maxDepth : Nat)
      (sitemapUrls : List String) (fuel : Nat) (p : UrlParts),
      urlparse base = .ok p →
      ∃ t, generate_sitemap (.ok ()) oracle base maxDepth sitemapUrls fuel =
        .ok t) := by
  refine ⟨fun base url e => rfl, ?_, ?_,
    fun oracle base maxDepth su fuel e => rfl, ?_⟩
  · intro base url ts₁ t ts₂ e hfail
    show extractLoop base url [] (ts₁ ++ t :: ts₂) = extractLoop base url [] ts₁
    exact extractLoop_stop base url t e hfail ts₁ ts₂ []
  · intro base maxDepth fuel s url depth r₁ r₂ pg hagree herr hok
    have horacle : (fun u => get_page_links base u (r₁ u)) =
        (fun u => get_page_links base u (r₂ u)) := by
      funext u
      by_cases hu : u = pg
      · subst hu
        obtain ⟨e, he⟩ := herr
        rw [he, hok]
        rfl
      · rw [hagree u hu]
    rw [horacle]
  · intro oracle base maxDepth sitemapUrls fuel p hp
    unfold generate_sitemap
    rw [crawl_site_ok oracle base maxDepth sitemapUrls p hp]
    by_cases hb : base ≠ synth_root p
    · rw [if_pos hb]
      refine ⟨?_, ?_⟩
      · exact [(⟨p.netloc⟩, Entry.sub (build_tree_for_url
          (crawlF oracle base maxDepth (maxDepth + 1)
            (crawlF oracle base maxDepth (maxDepth + 1)
              ⟨[], unionInto [] sitemapUrls, []⟩ (synth_root p) 0).1 base 0).1
          fuel (synth_root p)))]
      · show build_hierarchical_sitemap _ base fuel = _
        unfold build_hierarchical_sitemap
        rw [hp]
    · rw [if_neg hb]
      refine ⟨?_, ?_⟩
      · exact [(⟨p.netloc⟩, Entry.sub (build_tree_for_url
          (crawlF oracle base maxDepth (maxDepth + 1)
            ⟨[], unionInto [] sitemapUrls, []⟩ (synth_root p) 0).1
          fuel (synth_root p)))]
      · show build_hierarchical_sitemap _ base fuel = _
        unfold build_hierarchical_sitemap
        rw [hp]

/-- C7 counterexample: a render that SUCCEEDS but whose extraction loop
hits a malformed (bracket-mismatched) href mid-way does not yield the
empty set — the link accumulated before the failing target is returned,
and a perfectly good target after it is lost. -/
theorem C7_counterexample :
    urlparse "http://[::1/bad" = .error "Invalid IPv6 URL" ∧
    get_page_links "https://x.com" "https://x.com/p"
        (.ok ["https://x.com/good-page", "http://[::1/bad",
              "https://x.com/never-reached"]) =
      ["https://x.com/good-page"] := by
  exact ⟨by decide, by decide⟩

/-- C7 witness: the failure-policy facts at concrete inputs, via the
theorem (renderers given as concrete functions). -/
theorem C7_witness :
    get_page_links "https://x.com" "https://x.com/p" (.error "timeout") = [] ∧
    get_page_links "https://x.com" "https://x.com/p"
        (.ok ["https://x.com/a", "http://[::1", "https://x.com/b"]) =
      extract_links "https://x.com" "https://x.com/p" ["https://x.com/a"] ∧
    crawlF (fun u => get_page_links "https://x.com" u
        ((fun v => if v = "https://x.com/p"
          then (.error "timeout" : Except String (List String))
          else .ok []) u)) "https://x.com" 5 6 ⟨[], [], []⟩ "https://x.com" 0 =
      crawlF (fun u => get_page_links "https://x.com" u
        ((fun v => if v = "https://x.com/p"
          then (.ok [] : Except String (List String))
          else .ok []) u)) "https://x.com" 5 6 ⟨[], [], []⟩ "https://x.com" 0 ∧
    generate_sitemap (.error "driver boom") (fun _ => []) "https://x.com" 5 [] 3 =
      .error "driver boom" := by
  refine ⟨C7_page_failures_recoverable.1 "https://x.com" "https://x.com/p"
      "timeout",
    C7_page_failures_recoverable.2.1 "https://x.com" "https://x.com/p"
      ["https://x.com/a"] "http://[::1" ["https://x.com/b"]
      "Invalid IPv6 URL" (by decide),
    ?_, C7_page_failures_recoverable.2.2.2.1 (fun _ => [])
      "https://x.com" 5 [] 3 "driver boom"⟩
  exact C7_page_failures_recoverable.2.2.1 "https://x.com" 5 6 ⟨[], [], []⟩
    "https://x.com" 0 _ _ "https://x.com/p"
    (fun u hu => by simp [hu]) ⟨"timeout", by simp⟩ (by simp)

lemma foldl_fun_congr {α β : Type} (f g : α → β → α)
    (h : ∀ a b, f a b = g a b) :
    ∀ (l : List β) (a : α), l.foldl f a = l.foldl g a := by
  intro l
  induction l with
  | nil => intro a; rfl
  | cons x xs ih =>
    intro a
    rw [List.foldl_cons, List.foldl_cons, h, ih]

lemma build_tree_succ (st : CrawlState) (fuel : Nat) (url : String)
    (children : List String) (h : childrenLookup st url = some children) :
    build_tree_for_url st (fuel + 1) url =
      (sortStrings children).foldl (fun tree child =>
        updateAssoc tree (pathKeyB child) (childEntryG st fuel child)) [] := by
  unfold build_tree_for_url
  rw [h]
  apply foldl_fun_congr
  intro tree child
  unfold childEntryG
  cases hc : childrenLookup st child with
  | none => rfl
  | some cc =>
    show (if cc ≠ [] then
        updateAssoc tree (pathKeyB child)
          (Entry.sub (build_tree_for_url st fuel child))
      else updateAssoc tree (pathKeyB child)
          (Entry.leaf (leafDescendants st child))) =
      updateAssoc tree (pathKeyB child)
        (if cc ≠ [] then Entry.sub (build_tree_for_url st fuel child)
          else Entry.leaf (leafDescendants st child))
    by_cases hcc : cc ≠ []
    · rw [if_pos hcc, if_pos hcc]
    · rw [if_neg hcc, if_neg hcc]

lemma lookupEntry_updateAssoc_self :
    ∀ (t : List (String × Entry)) (k : String) (v : Entry),
      lookupEntry (updateAssoc t k v) k = some v := by
  intro t
  induction t with
  | nil => intro k v; simp [updateAssoc, lookupEntry]
  | cons e rest ih =>
    intro k v
    unfold updateAssoc
    by_cases h : e.1 = k
    · rw [if_pos h]
      simp [lookupEntry]
    · rw [if_neg h]
      unfold lookupEntry
      rw [if_neg h]
      exact ih k v

lemma lookupEntry_updateAssoc_ne :
    ∀ (t : List (String × Entry)) (k : String) (v : Entry) (k' : String),
      k' ≠ k → lookupEntry (updateAssoc t k v) k' = lookupEntry t k' := by
  intro t
  induction t with
  | nil =>
    intro k v k' hne
    unfold updateAssoc lookupEntry
    rw [if_neg (fun hh => hne hh.symm)]
    rfl
  | cons e rest ih =>
    intro k v k' hne
    unfold updateAssoc
    by_cases h : e.1 = k
    · rw [if_pos h]
      unfold lookupEntry
      rw [if_neg (fun hh => hne hh.symm),
        if_neg (fun hh => hne (hh.symm.trans h))]
    · rw [if_neg h]
      unfold lookupEntry
      by_cases h2 : e.1 = k'
      · rw [if_pos h2, if_pos h2]
      · rw [if_neg h2, if_neg h2]
        exact ih k v k' hne

lemma lookupEntry_fold (st : CrawlState) (fuel : Nat) (c : String) :
    ∀ (cs : List String) (t0 : List (String × Entry)),
      (∀ c' ∈ cs, pathKeyB c' = pathKeyB c → c' = c) →
      (c ∈ cs ∨ lookupEntry t0 (pathKeyB c) = some (childEntryG st fuel c)) →
      lookupEntry (cs.foldl (fun tree child =>
          updateAssoc tree (pathKeyB child) (childEntryG st fuel child)) t0)
        (pathKeyB c) = some (childEntryG st fuel c) := by
  intro cs
  induction cs with
  | nil =>
    intro t0 _ h
    rcases h with h | h
    · simp at h
    · exact h
  | cons x rest ih =>
    intro t0 huniq h
    simp only [List.foldl_cons]
    apply ih _ (fun c' hc' => huniq c' (List.mem_cons_of_mem _ hc'))
    rcases h with h1 | h2
    · rcases List.mem_cons.mp h1 with rfl | h3
      · exact Or.inr (lookupEntry_updateAssoc_self t0 _ _)
      · exact Or.inl h3
    · by_cases hk : pathKeyB x = pathKeyB c
      · have hxc : x = c := huniq x (by simp) hk
        subst hxc
        exact Or.inr (lookupEntry_updateAssoc_self t0 _ _)
      · refine Or.inr ?_
        rw [lookupEntry_updateAssoc_ne t0 _ _ _ (fun hh => hk hh.symm)]
        exact h2

lemma leafDescendants_sorted_nodup (st : CrawlState) (child : String) :
    (leafDescendants st child).Sorted (· ≤ ·) ∧
      (leafDescendants st child).Nodup := by
  simp only [leafDescendants, sortStrings]
  exact ⟨List.sorted_insertionSort _ _,
    ((List.perm_insertionSort _ _).nodup_iff).mpr (List.nodup_dedup _)⟩

lemma mem_leafDescendants (st : CrawlState) (child k : String) :
    k ∈ leafDescendants st child ↔
      ∃ du ∈ (if containsSub "blogs".data (pathOfB child) = true
          then st.allFound else st.visited),
        ((pathOfB child ++ ['/']).isPrefixOf (pathOfB du)) = true ∧
        du ≠ child ∧
        (containsSub "blogs".data (pathOfB child) = true →
          containsSub "/blogs/".data (pathOfB du) = true) ∧
        pathKeyB du = k := by
  simp only [leafDescendants, sortStrings]
  rw [(List.perm_insertionSort _ _).mem_iff, List.mem_dedup, List.mem_map]
  by_cases hb : containsSub "blogs".data (pathOfB child) = true
  · rw [if_pos hb, if_pos hb]
    simp only [List.mem_filter, Bool.and_eq_true, Bool.not_eq_true',
      decide_eq_false_iff_not]
    constructor
    · rintro ⟨du, ⟨hmem, ⟨⟨hpre, hne⟩, hsb⟩⟩, hkey⟩
      exact ⟨du, hmem, hpre, hne, fun _ => hsb, hkey⟩
    · rintro ⟨du, hmem, hpre, hne, hsb, hkey⟩
      exact ⟨du, ⟨hmem, ⟨⟨hpre, hne⟩, hsb hb⟩⟩, hkey⟩
  · rw [if_neg hb, if_neg hb]
    simp only [List.mem_filter, Bool.and_eq_true, Bool.not_eq_true',
      decide_eq_false_iff_not]
    constructor
    · rintro ⟨du, ⟨hmem, ⟨hpre, hne⟩⟩, hkey⟩
      exact ⟨du, hmem, hpre, hne, fun hbb => absurd hbb hb, hkey⟩
    · rintro ⟨du, hmem, hpre, hne, _, hkey⟩
      exact ⟨du, ⟨hmem, ⟨hpre, hne⟩⟩, hkey⟩

/-- C3, amended: for a leaf child (empty or absent `url_children` entry)
whose path key is not shared by a sibling, the tree maps the child's
path key to a sorted, duplicate-free list containing exactly the path
keys of the candidates whose path extends the child's path by `/` and
which differ from the child, where the candidate set is `allFoundLinks`
when the child's path contains "blogs" — in which case a candidate must
ADDITIONALLY contain "/blogs/" in its path, a condition the claim omits
— and `visited` otherwise. -/
theorem C3_leaf_descendant_lists :
    ∀ (st : CrawlState) (fuel : Nat) (url child : String)
      (children : List String),
      childrenLookup st url = some children → child ∈ children →
      (childrenLookup st child = none ∨ childrenLookup st child = some []) →
      (∀ c' ∈ children, pathKeyB c' = pathKeyB child → c' = child) →
      ∃ ds, leafAt (build_tree_for_url st (fuel + 1) url) (pathKeyB child) =
          some ds ∧
        ds.Sorted (· ≤ ·) ∧ ds.Nodup ∧
        (∀ k, k ∈ ds ↔
          ∃ du ∈ (if containsSub "blogs".data (pathOfB child) = true
              then st.allFound else st.visited),
            ((pathOfB child ++ ['/']).isPrefixOf (pathOfB du)) = true ∧
            du ≠ child ∧
            (containsSub "blogs".data (pathOfB child) = true →
              containsSub "/blogs/".data (pathOfB du) = true) ∧
            pathKeyB du = k) := by
  intro st fuel url child children hurl hchild hleaf huniq
  have hG : childEntryG st fuel child = .leaf (leafDescendants st child) := by
    unfold childEntryG
    rcases hleaf with h | h
    · rw [h]
    · rw [h]
      simp
  refine ⟨leafDescendants st child, ?_,
    (leafDescendants_sorted_nodup st child).1,
    (leafDescendants_sorted_nodup st child).2,
    fun k => mem_leafDescendants st child k⟩
  rw [build_tree_succ st fuel url children hurl]
  have hlk := lookupEntry_fold st fuel child (sortStrings children) []
    (fun c' hc' => huniq c'
      ((List.perm_insertionSort _ _).mem_iff.mp hc'))
    (Or.inl ((List.perm_insertionSort _ _).mem_iff.mpr hchild))
  unfold leafAt
  rw [hlk, hG]

/-- C3 counterexample: child `https://x.com/myblogs` is a leaf whose
path contains "blogs"; the candidate `https://x.com/myblogs/x` is in
`allFoundLinks`, extends the child's path by `/` and differs from it, so
the claim demands its key in the descendant list — but the code's extra
`'/blogs/' in discovered_path` filter rejects it and the list is empty. -/
theorem C3_counterexample :
    leafAt
        (build_tree_for_url
          ⟨["https://x.com", "https://x.com/myblogs"],
            ["https://x.com/myblogs/x"],
            [("https://x.com", ["https://x.com/myblogs"]),
              ("https://x.com/myblogs", [])]⟩
          2 "https://x.com") "x.com/myblogs" = some [] ∧
    "https://x.com/myblogs/x" ∈
      (⟨["https://x.com", "https://x.com/myblogs"],
        ["https://x.com/myblogs/x"],
        [("https://x.com", ["https://x.com/myblogs"]),
          ("https://x.com/myblogs", [])]⟩ : CrawlState).allFound ∧
    containsSub "blogs".data (pathOfB "https://x.com/myblogs") = true ∧
    ((pathOfB "https://x.com/myblogs") ++ ['/']).isPrefixOf
      (pathOfB "https://x.com/myblogs/x") = true ∧
    ("https://x.com/myblogs/x" : String) ≠ "https://x.com/myblogs" := by
  decide

/-- C3 witness: the claim's `/docs` scenario, derived from the amended
theorem: the leaf `/docs/guide` lists `/docs/guide/setup`. -/
theorem C3_witness :
    "x.com/docs/guide/setup" ∈
      (leafAt
        (build_tree_for_url
          ⟨["https://x.com", "https://x.com/docs", "https://x.com/docs/guide",
            "https://x.com/docs/guide/setup"], [],
            [("https://x.com/docs", ["https://x.com/docs/guide"]),
              ("https://x.com/docs/guide", [])]⟩
          2 "https://x.com/docs") "x.com/docs/guide").getD [] := by
  obtain ⟨ds, hds, _, _, hiff⟩ := C3_leaf_descendant_lists
    ⟨["https://x.com", "https://x.com/docs", "https://x.com/docs/guide",
      "https://x.com/docs/guide/setup"], [],
      [("https://x.com/docs", ["https://x.com/docs/guide"]),
        ("https://x.com/docs/guide", [])]⟩
    1 "https://x.com/docs" "https://x.com/docs/guide"
    ["https://x.com/docs/guide"] (by decide) (by decide)
    (Or.inr (by decide)) (by decide)
  have hk : "x.com/docs/guide/setup" ∈ ds :=
    (hiff "x.com/docs/guide/setup").mpr
      ⟨"https://x.com/docs/guide/setup", by decide, by decide, by decide,
        by decide, by decide⟩
  have hkey : pathKeyB "https://x.com/docs/guide" = "x.com/docs/guide" := by
    decide
  rw [hkey] at hds
  rw [hds]
  exact hk

lemma lookupList_perm {l₁ l₂ : List (String × List String)}
    (h : List.Forall₂ (fun e₁ e₂ => e₁.1 = e₂.1 ∧ e₁.2.Perm e₂.2) l₁ l₂) :
    ∀ k, (lookupList l₁ k = none ∧ lookupList l₂ k = none) ∨
      (∃ v₁ v₂, lookupList l₁ k = some v₁ ∧ lookupList l₂ k = some v₂ ∧
        v₁.Perm v₂) := by
  induction h with
  | nil => intro k; exact Or.inl ⟨rfl, rfl⟩
  | cons h₁ h₂ ih =>
    intro k
    rename_i e₁ e₂ l₁ l₂
    obtain ⟨hk, hp⟩ := h₁
    unfold lookupList
    by_cases hkey : e₁.1 = k
    · rw [if_pos hkey, if_pos (hk ▸ hkey)]
      exact Or.inr ⟨e₁.2, e₂.2, rfl, rfl, hp⟩
    · rw [if_neg hkey, if_neg (fun hh => hkey (hk ▸ hh))]
      exact ih k

lemma sortStrings_eq_of_perm {l₁ l₂ : List String} (h : l₁.Perm l₂) :
    sortStrings l₁ = sortStrings l₂ := by
  unfold sortStrings
  exact List.eq_of_perm_of_sorted
    ((List.perm_insertionSort _ _).trans
      (h.trans (List.perm_insertionSort _ _).symm))
    (List.sorted_insertionSort _ _) (List.sorted_insertionSort _ _)

lemma leafDescendants_perm {st₁ st₂ : CrawlState}
    (hv : st₁.visited.Perm st₂.visited)
    (ha : st₁.allFound.Perm st₂.allFound) (child : String) :
    leafDescendants st₁ child = leafDescendants st₂ child := by
  simp only [leafDescendants]
  by_cases hb : containsSub "blogs".data (pathOfB child) = true
  · rw [if_pos hb, if_pos hb]
    exact sortStrings_eq_of_perm (((ha.filter _).map _).dedup)
  · rw [if_neg hb, if_neg hb]
    exact sortStrings_eq_of_perm (((hv.filter _).map _).dedup)

lemma build_tree_perm {st₁ st₂ : CrawlState}
    (hv : st₁.visited.Perm st₂.visited)
    (ha : st₁.allFound.Perm st₂.allFound)
    (hc : List.Forall₂ (fun e₁ e₂ => e₁.1 = e₂.1 ∧ e₁.2.Perm e₂.2)
      st₁.childrenOf st₂.childrenOf) :
    ∀ (fuel : Nat) (u : String),
      build_tree_for_url st₁ fuel u = build_tree_for_url st₂ fuel u := by
  intro fuel
  induction fuel with
  | zero => intro u; rfl
  | succ fuel ih =>
    intro u
    have hGeq : ∀ child, childEntryG st₁ fuel child = childEntryG st₂ fuel child := by
      intro child
      unfold childEntryG
      rcases lookupList_perm hc child with ⟨h1, h2⟩ | ⟨v₁, v₂, h1, h2, hp⟩
      · rw [show childrenLookup st₁ child = none from h1,
          show childrenLookup st₂ child = none from h2]
        rw [leafDescendants_perm hv ha child]
      · rw [show childrenLookup st₁ child = some v₁ from h1,
          show childrenLookup st₂ child = some v₂ from h2]
        show (if v₁ ≠ [] then Entry.sub (build_tree_for_url st₁ fuel child)
            else Entry.leaf (leafDescendants st₁ child)) =
          (if v₂ ≠ [] then Entry.sub (build_tree_for_url st₂ fuel child)
            else Entry.leaf (leafDescendants st₂ child))
        by_cases hne : v₁ ≠ []
        · have hne₂ : v₂ ≠ [] := by
            intro hnil
            rw [hnil] at hp
            exact hne hp.eq_nil
          rw [if_pos hne, if_pos hne₂, ih child]
        · have hnil : v₁ = [] := not_not.mp hne
          have hnil₂ : v₂ = [] := by
            rw [hnil] at hp
            exact hp.symm.eq_nil
          rw [if_neg hne, if_neg (by rw [hnil₂]; exact not_not.mpr rfl),
            leafDescendants_perm hv ha child]
    rcases lookupList_perm hc u with ⟨h1, h2⟩ | ⟨v₁, v₂, h1, h2, hp⟩
    · unfold build_tree_for_url
      rw [show childrenLookup st₁ u = none from h1,
        show childrenLookup st₂ u = none from h2]
    · rw [build_tree_succ st₁ fuel u v₁ h1, build_tree_succ st₂ fuel u v₂ h2,
        sortStrings_eq_of_perm hp]
      apply foldl_fun_congr
      intro tree child
      rw [hGeq child]

lemma mem_updateAssoc :
    ∀ (t : List (String × Entry)) (k : String) (v : Entry) (e : String × Entry),
      e ∈ updateAssoc t k v → e = (k, v) ∨ e ∈ t := by
  intro t
  induction t with
  | nil =>
    intro k v e he
    simp [updateAssoc] at he
    exact Or.inl he
  | cons x rest ih =>
    intro k v e he
    unfold updateAssoc at he
    by_cases h : x.1 = k
    · rw [if_pos h] at he
      rcases List.mem_cons.mp he with rfl | h2
      · exact Or.inl rfl
      · exact Or.inr (List.mem_cons_of_mem _ h2)
    · rw [if_neg h] at he
      rcases List.mem_cons.mp he with rfl | h2
      · exact Or.inr (List.mem_cons_self _ _)
      · rcases ih k v e h2 with h3 | h3
        · exact Or.inl h3
        · exact Or.inr (List.mem_cons_of_mem _ h3)

lemma mem_foldl_updateAssoc (kf : String → String) (G : String → Entry) :
    ∀ (cs : List String) (t0 : List (String × Entry)) (e : String × Entry),
      e ∈ cs.foldl (fun t c => updateAssoc t (kf c) (G c)) t0 →
      e ∈ t0 ∨ ∃ c ∈ cs, e = (kf c, G c) := by
  intro cs
  induction cs with
  | nil => intro t0 e he; exact Or.inl he
  | cons c rest ih =>
    intro t0 e he
    simp only [List.foldl_cons] at he
    rcases ih _ e he with h1 | ⟨c', hc', rfl⟩
    · rcases mem_updateAssoc t0 (kf c) (G c) e h1 with h2 | h2
      · exact Or.inr ⟨c, by simp, h2⟩
      · exact Or.inl h2
    · exact Or.inr ⟨c', List.mem_cons_of_mem _ hc', rfl⟩

lemma build_tree_entries_ok :
    ∀ (fuel : Nat) (st : CrawlState) (u : String),
      ∀ e ∈ build_tree_for_url st fuel u, EntryOK e.2 := by
  intro fuel
  induction fuel with
  | zero => intro st u e he; simp [build_tree_for_url] at he
  | succ fuel ih =>
    intro st u e he
    cases hc : childrenLookup st u with
    | none =>
      have hnil : build_tree_for_url st (fuel + 1) u = [] := by
        unfold build_tree_for_url
        rw [hc]
      rw [hnil] at he
      simp at he
    | some children =>
      rw [build_tree_succ st fuel u children hc] at he
      rcases mem_foldl_updateAssoc pathKeyB (childEntryG st fuel) _ _ _ he with
        h0 | ⟨c, _, rfl⟩
      · simp at h0
      · show EntryOK (childEntryG st fuel c)
        unfold childEntryG
        cases hcc : childrenLookup st c with
        | none =>
          exact EntryOK.leaf _ (leafDescendants_sorted_nodup st c).1
            (leafDescendants_sorted_nodup st c).2
        | some cc =>
          show EntryOK (if cc ≠ [] then
              Entry.sub (build_tree_for_url st fuel c)
            else Entry.leaf (leafDescendants st c))
          by_cases hne : cc ≠ []
          · rw [if_pos hne]
            exact EntryOK.sub _ (fun e' he' => ih st c e' he')
          · rw [if_neg hne]
            exact EntryOK.leaf _ (leafDescendants_sorted_nodup st c).1
              (leafDescendants_sorted_nodup st c).2

lemma keys_updateAssoc :
    ∀ (t : List (String × Entry)) (k : String) (v : Entry),
      (updateAssoc t k v).map Prod.fst =
        if k ∈ t.map Prod.fst then t.map Prod.fst
        else t.map Prod.fst ++ [k] := by
  intro t
  induction t with
  | nil => intro k v; simp [updateAssoc]
  | cons e rest ih =>
    intro k v
    unfold updateAssoc
    by_cases h : e.1 = k
    · rw [if_pos h]
      simp only [List.map_cons]
      rw [if_pos (List.mem_cons.mpr (Or.inl h.symm))]
      rw [h]
    · rw [if_neg h]
      simp only [List.map_cons]
      rw [ih]
      by_cases hk : k ∈ rest.map Prod.fst
      · rw [if_pos hk,
          if_pos (List.mem_cons.mpr (Or.inr hk))]
      · rw [if_neg hk,
          if_neg (by
            rw [List.mem_cons]
            rintro (h1 | h1)
            · exact h (h1.symm)
            · exact hk h1)]
        rfl

lemma keys_foldl_updateAssoc (kf : String → String) (G : String → Entry) :
    ∀ (cs : List String) (t0 : List (String × Entry)),
      (cs.foldl (fun t c => updateAssoc t (kf c) (G c)) t0).map Prod.fst =
        cs.foldl (fun ks c => if kf c ∈ ks then ks else ks ++ [kf c])
          (t0.map Prod.fst) := by
  intro cs
  induction cs with
  | nil => intro t0; rfl
  | cons c rest ih =>
    intro t0
    simp only [List.foldl_cons]
    rw [ih]
    congr 1
    exact keys_updateAssoc t0 (kf c) (G c)

lemma firstDedup_map (kf : String → String) (cs : List String) :
    firstDedup (cs.map kf) =
      cs.foldl (fun ks c => if kf c ∈ ks then ks else ks ++ [kf c]) [] := by
  unfold firstDedup
  rw [List.foldl_map]

/-- C8: `build_tree_for_url` is insensitive to the iteration order of
`visited`, `allFoundLinks` and the `childrenOf` value sets — two
snapshots equal as sets produce structurally identical trees (hence
byte-identical serializations), and so does
`build_hierarchical_sitemap`; every leaf list in any built tree is
sorted and duplicate-free, and the keys of each level are the path keys
of the children sorted lexicographically by full child URL (first
occurrence kept on key collisions). -/
theorem C8_build_tree_deterministic :
    (∀ (st₁ st₂ : CrawlState), st₁.visited.Perm st₂.visited →
      st₁.allFound.Perm st₂.allFound →
      List.Forall₂ (fun e₁ e₂ => e₁.1 = e₂.1 ∧ e₁.2.Perm e₂.2)
        st₁.childrenOf st₂.childrenOf →
      ∀ (fuel : Nat) (u : String),
        build_tree_for_url st₁ fuel u = build_tree_for_url st₂ fuel u) ∧
    (∀ (st₁ st₂ : CrawlState) (base : String) (fuel : Nat),
      st₁.visited.Perm st₂.visited → st₁.allFound.Perm st₂.allFound →
      List.Forall₂ (fun e₁ e₂ => e₁.1 = e₂.1 ∧ e₁.2.Perm e₂.2)
        st₁.childrenOf st₂.childrenOf →
      build_hierarchical_sitemap st₁ base fuel =
        build_hierarchical_sitemap st₂ base fuel) ∧
    (∀ (st : CrawlState) (fuel : Nat) (u : String),
      ∀ e ∈ build_tree_for_url st fuel u, EntryOK e.2) ∧
    (∀ (st : CrawlState) (fuel : Nat) (u : String) (children : List String),
      childrenLookup st u = some children →
      (build_tree_for_url st (fuel + 1) u).map Prod.fst =
        firstDedup ((sortStrings children).map pathKeyB)) := by
  refine ⟨fun st₁ st₂ hv ha hc => build_tree_perm hv ha hc, ?_,
    fun st fuel u => build_tree_entries_ok fuel st u, ?_⟩
  · intro st₁ st₂ base fuel hv ha hc
    unfold build_hierarchical_sitemap
    cases urlparse base with
    | error e => rfl
    | ok p =>
      show Except.ok [(String.mk p.netloc,
          Entry.sub (build_tree_for_url st₁ fuel (synth_root p)))] =
        Except.ok [(String.mk p.netloc,
          Entry.sub (build_tree_for_url st₂ fuel (synth_root p)))]
      rw [build_tree_perm hv ha hc]
  · intro st fuel u children h
    rw [build_tree_succ st fuel u children h,
      keys_foldl_updateAssoc pathKeyB (childEntryG st fuel), firstDedup_map]
    rfl

/-- C8 witness: reordering `visited` leaves the built tree unchanged, at
a concrete snapshot. -/
theorem C8_witness :
    build_tree_for_url
        ⟨["https://x.com", "https://x.com/a"], ["https://x.com/a/b"],
          [("https://x.com", ["https://x.com/a"]), ("https://x.com/a", [])]⟩
        3 "https://x.com" =
      build_tree_for_url
        ⟨["https://x.com/a", "https://x.com"], ["https://x.com/a/b"],
          [("https://x.com", ["https://x.com/a"]), ("https://x.com/a", [])]⟩
        3 "https://x.com" := by
  exact C8_build_tree_deterministic.1
    ⟨["https://x.com", "https://x.com/a"], ["https://x.com/a/b"],
      [("https://x.com", ["https://x.com/a"]), ("https://x.com/a", [])]⟩
    ⟨["https://x.com/a", "https://x.com"], ["https://x.com/a/b"],
      [("https://x.com", ["https://x.com/a"]), ("https://x.com/a", [])]⟩
    (List.Perm.swap _ _ _) (List.Perm.refl _)
    (List.Forall₂.cons ⟨rfl, List.Perm.refl _⟩
      (List.Forall₂.cons ⟨rfl, List.Perm.refl _⟩ List.Forall₂.nil))
    3 "https://x.com"
